import Mathlib

/-!
Shallow embedding of the gravity simulation engine (Rust crate `gravity`)
into Lean 4, over exact real arithmetic: `f32`/`f64` values are modelled as
real numbers, `num_complex::Complex<f32>` as `ℂ`, and `HashMap<BodyID, Body>`
as an association list with `Nat` keys (the `Instant`-based identities are
opaque unique tokens; we model them as naturals, fresh identities being
issued above every existing key).  Fallible/panicking code paths are
modelled with `Option`.
-/

namespace Gravity

open scoped Classical

noncomputable section

/-- Gravitational constant, `const G: f64 = 0.05` in `main.rs`. -/
def G : ℝ := 1 / 20

/-- Mirror of `struct Body` in `body.rs`: position, velocity and mass (the
radius is the derived quantity `get_radius`). -/
structure Body where
  pos : ℂ
  speed : ℂ
  mass : ℝ

/-- Mirror of `Body::get_radius`: `self.mass.powf(1.0 / 3.0)`. -/
def Body.get_radius (b : Body) : ℝ := b.mass ^ ((1 : ℝ) / 3)

/-- Mirror of `Body::adjust_speed`:
`let r = pos - self.pos; self.speed += G * mass * r / r.abs().powi(3);`. -/
def Body.adjust_speed (b : Body) (pos : ℂ) (mass : ℝ) : Body :=
  let r : ℂ := pos - b.pos
  { b with speed := b.speed + ((G * mass : ℝ) : ℂ) * r / ((Complex.abs r ^ (3 : ℕ) : ℝ) : ℂ) }

/-- The body store `HashMap<BodyID, Body>` as an association list. -/
abbrev Store := List (ℕ × Body)

/-- Key set of a store. -/
def Store.keys (s : Store) : List ℕ := s.map Prod.fst

/-- Store lookup; the Rust `bodies.get(id).unwrap()` is modelled by
defaulting (the default is never reached at the call sites we verify). -/
def getBody (s : Store) (id : ℕ) : Body := (List.lookup id s).getD ⟨0, 0, 0⟩

/-- Total mass of a store, `sum(mass)` in the spec. -/
def massSum (s : Store) : ℝ := (s.map fun p => p.2.mass).sum

/-! ## Adaptive accuracy controller (`barnes_hut.rs`) -/

/-- Mirror of `const DELTA_THETA: f32 = 0.01`. -/
def DELTA_THETA : ℝ := 1 / 100

/-- Mirror of `enum ThetaAdjustment { Increase = 1, Decrease = -1 }`. -/
inductive ThetaAdjustment where
  | increase
  | decrease

/-- The discriminant used by `adjustment as isize as f32`. -/
def ThetaAdjustment.factor : ThetaAdjustment → ℝ
  | .increase => 1
  | .decrease => -1

/-- Mirror of `BarnesHut::adjust_theta`:
`*write += DELTA_THETA * adjustment as isize as f32; *write = write.max(0.0);`.
The shared `THETA` cell is modelled by explicit state passing. -/
def adjust_theta (adjustment : ThetaAdjustment) (theta : ℝ) : ℝ :=
  max (theta + DELTA_THETA * adjustment.factor) 0

/-- A sequence of `adjust_theta` calls applied to a starting value. -/
def adjust_theta_list (l : List ThetaAdjustment) (theta : ℝ) : ℝ :=
  l.foldl (fun t adj => adjust_theta adj t) theta

/-! ## Grid cells (`grid.rs`) -/

/-- Mirror of `struct Cell` in `grid.rs`. -/
structure Cell where
  bodies : List ℕ
  total_mass : ℝ
  pos : ℂ

/-- Mirror of `Cell::set_pos`: `if self.total_mass != 0.0 { self.pos /= self.total_mass }`. -/
def Cell.set_pos (c : Cell) : Cell :=
  if c.total_mass ≠ 0 then { c with pos := c.pos / (c.total_mass : ℂ) } else c

/-! ## Direct engine (`direct.rs`) -/

/-- Pointwise update of one store entry, modelling `bodies.get_mut(id)`
followed by a mutation of that entry. -/
def updateEntry (s : Store) (id : ℕ) (f : Body → Body) : Store :=
  s.map fun p => if p.1 = id then (p.1, f p.2) else p

/-- One inner-loop step of `Direct::handle`: for the pair `(lhs_id, rhs_id)`,
if distinct, `lhs.adjust_speed(rhs.pos, rhs.mass)` with `rhs` read from the
start-of-pass clone. -/
def directStep (clone : Store) (cur : Store) (lhs_id rhs_id : ℕ) : Store :=
  if lhs_id ≠ rhs_id then
    match List.lookup rhs_id clone with
    | some rhs => updateEntry cur lhs_id fun lhs => lhs.adjust_speed rhs.pos rhs.mass
    | none => cur
  else cur

/-- Mirror of `Direct::handle`: clone the store, then for every ordered pair
of keys accumulate the pairwise attraction into the first body's velocity. -/
def Direct.handle (bodies : Store) : Store :=
  let clone := bodies
  let bodies_keys := bodies.keys
  bodies_keys.foldl
    (fun cur lhs_id => bodies_keys.foldl (fun cur2 rhs_id => directStep clone cur2 lhs_id rhs_id) cur)
    bodies

/-! ## Collision / merge engine (`body.rs`) -/

/-- Mirror of `Body::get_closest`: the identities of every other body whose
disc touches or overlaps the disc of `b` (which is stored under `id`):
`*body_id != id && (body.pos - self.pos).abs() <= radius + body.get_radius()`. -/
def get_closest (b : Body) (id : ℕ) (bodies : Store) : List ℕ :=
  ((bodies.filter fun p =>
      p.1 ≠ id ∧ Complex.abs (p.2.pos - b.pos) ≤ b.get_radius + p.2.get_radius).map Prod.fst)

/-- Mirror of `Body::collect_chain`: depth-first collection of the
overlap-connected component of `id`, threading the `visited` set.  The Rust
recursion has no explicit bound; it is modelled with fuel (callers pass the
store size, which the recursion - consuming one unvisited identity per
nested call - never exhausts). -/
def collect_chain : ℕ → Body → ℕ → Store → Finset ℕ → List ℕ × Finset ℕ
  | 0, _, id, _, visited => ([id], insert id visited)
  | fuel + 1, b, id, bodies, visited =>
      (get_closest b id bodies).foldl
        (fun acc neighbor_id =>
          if neighbor_id ∈ acc.2 then acc
          else
            match List.lookup neighbor_id bodies with
            | some neighbor =>
                let r := collect_chain fuel neighbor neighbor_id bodies acc.2
                (acc.1 ++ r.1, r.2)
            | none => acc)
        ([id], insert id visited)

/-- The loop body of `collect_chain` over one neighbor, at the given
recursion fuel. -/
def ccStep (fuel : ℕ) (bodies : Store) (acc : List ℕ × Finset ℕ) (neighbor_id : ℕ) :
    List ℕ × Finset ℕ :=
  if neighbor_id ∈ acc.2 then acc
  else
    match List.lookup neighbor_id bodies with
    | some neighbor =>
        let r := collect_chain fuel neighbor neighbor_id bodies acc.2
        (acc.1 ++ r.1, r.2)
    | none => acc

/-- The loop body of the chain-collecting scan in `Body::update_bodies`. -/
def cvStep (bodies : Store) (acc : List (List ℕ) × Finset ℕ) (p : ℕ × Body) :
    List (List ℕ) × Finset ℕ :=
  if p.1 ∈ acc.2 then acc
  else
    let r := collect_chain bodies.length p.2 p.1 bodies acc.2
    (acc.1 ++ [r.1], r.2)

/-- The outer loop of `Body::update_bodies`: scan the store in order,
starting a chain at every not-yet-visited identity; returns the list of
chains together with the final visited set. -/
def chainsAndVisited (bodies : Store) : List (List ℕ) × Finset ℕ :=
  bodies.foldl (cvStep bodies) ([], ∅)

/-- Merging one chain in `Body::update_bodies`: new mass is the sum of the
chain's masses, new position/velocity are the mass-weighted averages. -/
def mergeChain (bodies : Store) (chain : List ℕ) : Body :=
  let new_mass := (chain.map fun id => (getBody bodies id).mass).sum
  let new_pos :=
    (chain.map fun id => ((getBody bodies id).mass : ℂ) * (getBody bodies id).pos).sum
      / (new_mass : ℂ)
  let new_speed :=
    (chain.map fun id => ((getBody bodies id).mass : ℂ) * (getBody bodies id).speed).sum
      / (new_mass : ℂ)
  { pos := new_pos, speed := new_speed, mass := new_mass }

/-- The first key strictly above every key of the store; `BodyID::now()`
issues identities above all previously issued ones, which this models. -/
def freshBase (s : Store) : ℕ := s.keys.foldr max 0 + 1

/-- The first loop of `Body::update_bodies`:
`for body in bodies.values_mut() { body.pos += body.speed }`. -/
def advance (bodies : Store) : Store :=
  bodies.map fun p => (p.1, { p.2 with pos := p.2.pos + p.2.speed })

/-- Mirror of `Body::update_bodies`: advance every position by its velocity,
group the store into overlap-connected chains, remove every visited identity
and insert each chain's merged product under a fresh identity. -/
def update_bodies (bodies : Store) : Store :=
  (advance bodies).filter (fun p => p.1 ∉ (chainsAndVisited (advance bodies)).2) ++
    (chainsAndVisited (advance bodies)).1.enum.map fun kc =>
      (freshBase (advance bodies) + kc.1, mergeChain (advance bodies) kc.2)

/-! ## Barnes-Hut quadtree engine (`barnes_hut.rs`) -/

/-- Mirror of `struct Square`. -/
structure Square where
  top_left : ℂ
  size : ℝ

/-- Mirror of `struct Rectangle` (in `quadtree.rs`, used by `get_rectangle`). -/
structure Rectangle where
  top_left : ℂ
  bottom_right : ℂ

/-- Mirror of `enum QuadtreeNodeBodies { All, Bodies(HashSet<BodyID>) }`. -/
inductive NodeBodies where
  | all
  | bodies (ids : List ℕ)

/-- Mirror of `struct QuadtreeNode`.  The Rust code stores nodes in a
`HashMap<NodeID, QuadtreeNode>` arena with `children` holding node ids; each
tick builds a tree from the root, which we represent directly as an
inductive tree (children in the iteration order `[[0][0], [0][1], [1][0], [1][1]]`). -/
inductive QTree where
  | mk (children : Option (QTree × QTree × QTree × QTree))
       (nodeBodies : NodeBodies) (square : Square) (total_mass : ℝ) (pos : ℂ)

def QTree.children : QTree → Option (QTree × QTree × QTree × QTree)
  | .mk c _ _ _ _ => c

def QTree.nodeBodies : QTree → NodeBodies
  | .mk _ nb _ _ _ => nb

def QTree.square : QTree → Square
  | .mk _ _ sq _ _ => sq

def QTree.total_mass : QTree → ℝ
  | .mk _ _ _ m _ => m

def QTree.pos : QTree → ℂ
  | .mk _ _ _ _ p => p

/-- The member count a node reports:
`match &current_node.bodies { All => bodies.len(), Bodies(s) => s.len() }`. -/
def countNode (nb : NodeBodies) (bodies_len : ℕ) : ℕ :=
  match nb with
  | .all => bodies_len
  | .bodies l => l.length

/-- The membership test used by `QuadtreeNode::adjust_speed`:
`match &current_node.bodies { All => true, Bodies(s) => s.contains(&body_id) }`. -/
def isMember (nb : NodeBodies) (body_id : ℕ) : Prop :=
  match nb with
  | .all => True
  | .bodies l => body_id ∈ l

/-- The member identities a node is split over:
`All` iterates `bodies.keys()`, `Bodies` iterates the stored set. -/
def memberList (nb : NodeBodies) (bodies : Store) : List ℕ :=
  match nb with
  | .all => bodies.keys
  | .bodies l => l

/-- Mirror of `QuadtreeNode::adjust_speed` for one target body.  Only the
target's entry is ever mutated, so the store is threaded as the target's
`Body` plus the store length (read by the `All` arm); `none` models the
panic of `current_node.children.unwrap()` when a node with at least two
members has no children. -/
def QTree.adjust_speed (theta : ℝ) (bodies_len : ℕ) (body_id : ℕ) (t : QTree) (body : Body) :
    Option Body :=
  match t with
  | .mk children nb square total_mass pos =>
    let cnt := countNode nb bodies_len
    if cnt = 0 then some body
    else if cnt = 1 then
      if isMember nb body_id then some body
      else some (body.adjust_speed pos total_mass)
    else
      let r := Complex.abs (pos - body.pos)
      if square.size / r ≤ theta ∧ ¬ isMember nb body_id then
        some (body.adjust_speed pos total_mass)
      else
        match children with
        | none => none
        | some (c00, c01, c10, c11) =>
          (c00.adjust_speed theta bodies_len body_id body).bind fun b1 =>
            (c01.adjust_speed theta bodies_len body_id b1).bind fun b2 =>
              (c10.adjust_speed theta bodies_len body_id b2).bind fun b3 =>
                c11.adjust_speed theta bodies_len body_id b3

/-- In-progress child of a split: member list, accumulated `total_mass`, and
accumulated mass-weighted position sum. -/
abbrev ChildAcc := List ℕ × ℝ × ℂ

/-- One body added to a child being built by `QuadtreeNode::split`:
`node_bodies.insert(*body_id); child.1.total_mass += body.mass; child.1.pos += body.pos * body.mass;`. -/
def addToChild (a : ChildAcc) (id : ℕ) (b : Body) : ChildAcc :=
  (a.1 ++ [id], a.2.1 + b.mass, a.2.2 + b.pos * (b.mass : ℂ))

/-- Quadrant indices of a body during a split:
`((body.pos.im - top_left.im) / child_size).floor() as usize` (and the same
for `re`); the `as usize` cast saturates negative values to `0`. -/
def childIndex (square : Square) (b : Body) : ℕ × ℕ :=
  let child_size := square.size / 2
  ((⌊(b.pos.im - square.top_left.im) / child_size⌋).toNat,
   (⌊(b.pos.re - square.top_left.re) / child_size⌋).toNat)

/-- The 2×2 child array `children[i][j]`, as `((c00, c01), (c10, c11))`. -/
abbrev Children4 (α : Type) := (α × α) × (α × α)

/-- Indexing update `children[i][j]`; an index outside `0..2` panics in Rust,
modelled by `none`. -/
def updC {α : Type} (c : Children4 α) (i j : ℕ) (f : α → α) : Option (Children4 α) :=
  match i, j with
  | 0, 0 => some ((f c.1.1, c.1.2), c.2)
  | 0, 1 => some ((c.1.1, f c.1.2), c.2)
  | 1, 0 => some (c.1, (f c.2.1, c.2.2))
  | 1, 1 => some (c.1, (c.2.1, f c.2.2))
  | _, _ => none

/-- The member-assignment loop of `QuadtreeNode::split`: every member body
is looked up (`none` models the `unwrap` panic on a dangling identity) and
accumulated into the child selected by `childIndex`. -/
def assignAll (square : Square) (bodies : Store) (members : List ℕ) :
    Option (Children4 ChildAcc) :=
  members.foldlM
    (fun cs id =>
      match List.lookup id bodies with
      | none => none
      | some b => updC cs (childIndex square b).1 (childIndex square b).2 fun a => addToChild a id b)
    ((([], 0, 0), ([], 0, 0)), (([], 0, 0), ([], 0, 0)))

/-- Finalization of child `(i, j)` after assignment: divide the accumulated
position by the total mass when the latter is nonzero, and attach the child
square `top_left + (j * child_size, i * child_size)` of half size. -/
def finalizeChild (square : Square) (i j : ℕ) (a : ChildAcc) : QTree :=
  let child_size := square.size / 2
  let pos := if a.2.1 ≠ 0 then a.2.2 / (a.2.1 : ℂ) else a.2.2
  .mk none (.bodies a.1)
    ⟨square.top_left + ⟨(j : ℝ) * child_size, (i : ℝ) * child_size⟩, square.size / 2⟩
    a.2.1 pos

/-- Mirror of `QuadtreeNode::split`: a node with at most one member is left
alone; otherwise its members are assigned to four children, each child is
recursively split, and the children are attached.  The unbounded Rust
recursion is modelled with fuel: `none` means the build does not complete
(fuel exhausted, an out-of-range quadrant index, or a dangling identity). -/
def split : ℕ → Store → QTree → Option QTree
  | 0, bodies, t =>
      if countNode t.nodeBodies bodies.length ≤ 1 then some t else none
  | fuel + 1, bodies, t =>
      if countNode t.nodeBodies bodies.length ≤ 1 then some t
      else
        match assignAll t.square bodies (memberList t.nodeBodies bodies) with
        | none => none
        | some cs =>
          match split fuel bodies (finalizeChild t.square 0 0 cs.1.1),
                split fuel bodies (finalizeChild t.square 0 1 cs.1.2),
                split fuel bodies (finalizeChild t.square 1 0 cs.2.1),
                split fuel bodies (finalizeChild t.square 1 1 cs.2.2) with
          | some d00, some d01, some d10, some d11 =>
              some (.mk (some (d00, d01, d10, d11)) t.nodeBodies t.square t.total_mass t.pos)
          | _, _, _, _ => none

/-- Minimum of a list of reals; `get_rectangle` folds `min` starting from
`f32::INFINITY`, which for a nonempty list coincides with this. -/
def listMin : List ℝ → ℝ
  | [] => 0
  | x :: xs => xs.foldl min x

/-- Maximum of a list of reals; `get_rectangle` folds `max` starting from
`f32::NEG_INFINITY`, which for a nonempty list coincides with this. -/
def listMax : List ℝ → ℝ
  | [] => 0
  | x :: xs => xs.foldl max x

/-- Mirror of `get_rectangle` in `body.rs`: the bounding rectangle of all
bodies, extended to the bottom/right by each body's radius. -/
def get_rectangle (bodies : Store) : Rectangle :=
  { top_left := ⟨listMin (bodies.map fun p => p.2.pos.re),
                 listMin (bodies.map fun p => p.2.pos.im)⟩,
    bottom_right := ⟨listMax (bodies.map fun p => p.2.pos.re + p.2.get_radius),
                     listMax (bodies.map fun p => p.2.pos.im + p.2.get_radius)⟩ }

/-- The square root node of `BarnesHut::handle`: the bounding rectangle
padded on its shorter axis to a centered square. -/
def boundingSquare (rectangle : Rectangle) : Square :=
  let width := rectangle.bottom_right.re - rectangle.top_left.re
  let height := rectangle.bottom_right.im - rectangle.top_left.im
  if width ≥ height then
    ⟨⟨rectangle.top_left.re, rectangle.top_left.im - (width - height) / 2⟩, width⟩
  else
    ⟨⟨rectangle.top_left.re - (height - width) / 2, rectangle.top_left.im⟩, height⟩

/-- The tree-building part of `BarnesHut::handle`: the root node covering
the bounding square, holding `All` bodies with aggregates initialized to
zero, then split. -/
def BarnesHut.handleTree (fuel : ℕ) (bodies : Store) : Option QTree :=
  split fuel bodies (.mk none .all (boundingSquare (get_rectangle bodies)) 0 0)

/-- Node count of a tree, the measure used for structural induction. -/
def QTree.size : QTree → ℕ
  | .mk none _ _ _ _ => 1
  | .mk (some (a, b, c, d)) _ _ _ _ => a.size + b.size + c.size + d.size + 1

/-- Well-formedness of a built tree: every node with at least two members
has children (so `children.unwrap()` in `adjust_speed` cannot panic). -/
def QTree.WF (len : ℕ) : QTree → Prop
  | .mk children nb _ _ _ =>
      (2 ≤ countNode nb len → children.isSome) ∧
      (match children with
       | none => True
       | some cs => cs.1.WF len ∧ cs.2.1.WF len ∧ cs.2.2.1.WF len ∧ cs.2.2.2.WF len)

end

/-! ## Theta controller: claim C4 -/

theorem adjust_theta_list_cons (a : ThetaAdjustment) (l : List ThetaAdjustment) (theta : ℝ) :
    adjust_theta_list (a :: l) theta = adjust_theta_list l (adjust_theta a theta) := rfl

theorem adjust_theta_nonneg (a : ThetaAdjustment) (theta : ℝ) : 0 ≤ adjust_theta a theta :=
  le_max_right _ _

theorem adjust_theta_increase_of_nonneg (theta : ℝ) (h : 0 ≤ theta) :
    adjust_theta .increase theta = theta + 1 / 100 := by
  simp only [adjust_theta, ThetaAdjustment.factor, DELTA_THETA, mul_one]
  rw [max_eq_left (by linarith)]

theorem adjust_theta_list_replicate_increase (n : ℕ) (theta : ℝ) (h : 0 ≤ theta) :
    adjust_theta_list (List.replicate n .increase) theta = theta + n / 100 := by
  induction n generalizing theta with
  | zero => simp [adjust_theta_list]
  | succ n ih =>
      rw [List.replicate_succ, adjust_theta_list_cons,
        adjust_theta_increase_of_nonneg theta h, ih _ (by linarith)]
      push_cast
      ring

/-- C4, counterexample: the claim that every sequence of `adjust_theta`
calls keeps theta at or below a configured maximum `THETA_MAX` is false:
the code has no upper clamp, so from the initial value `0` a run of 101
`Increase` calls already reaches `1.01`, and for every candidate bound `M`
some number of `Increase` calls pushes theta strictly above `M`. -/
theorem adjust_theta_unbounded_above :
    adjust_theta_list (List.replicate 101 .increase) 0 = 101 / 100 ∧
      ∀ M : ℝ, ∃ n : ℕ, M < adjust_theta_list (List.replicate n .increase) 0 := by
  constructor
  · rw [adjust_theta_list_replicate_increase 101 0 le_rfl]
    norm_num
  · intro M
    obtain ⟨n, hn⟩ := exists_nat_gt (100 * M)
    refine ⟨n, ?_⟩
    rw [adjust_theta_list_replicate_increase n 0 le_rfl]
    linarith

/-- C4, amended: any sequence of `adjust_theta` calls started at a
nonnegative theta keeps theta nonnegative (each call clamps below at `0`);
there is no upper clamp in the code. -/
theorem adjust_theta_list_nonneg (theta : ℝ) (h : 0 ≤ theta) (l : List ThetaAdjustment) :
    0 ≤ adjust_theta_list l theta := by
  induction l generalizing theta with
  | nil => exact h
  | cons a l ih => exact adjust_theta_list_cons a l theta ▸ ih _ (adjust_theta_nonneg a theta)

/-- C4, witness for the amended theorem at `theta = 0` and a concrete call
sequence. -/
theorem adjust_theta_list_nonneg_witness :
    (0 : ℝ) ≤ 0 ∧
      0 ≤ adjust_theta_list [.decrease, .decrease, .increase] 0 :=
  ⟨le_rfl, adjust_theta_list_nonneg 0 le_rfl [.decrease, .decrease, .increase]⟩

/-! ## Grid cells: claim C8 -/

/-- C8: a grid cell with zero `total_mass` contributes a zero-magnitude
force: applying `adjust_speed` against the cell's aggregate position and
mass (after `set_pos` finalization) leaves any body unchanged, whatever the
body's position. -/
theorem zero_mass_cell_contributes_nothing (c : Cell) (b : Body) (h : c.total_mass = 0) :
    b.adjust_speed c.set_pos.pos c.set_pos.total_mass = b := by
  have hset : c.set_pos = c := by simp [Cell.set_pos, h]
  cases b with
  | mk pos speed mass => simp [hset, Body.adjust_speed, h]

/-- C8, witness: a concrete empty cell and a concrete body, the body sitting
exactly at the cell's aggregate position. -/
theorem zero_mass_cell_contributes_nothing_witness :
    (Cell.mk [] 0 0).total_mass = 0 ∧
      (Body.mk 0 0 1).adjust_speed (Cell.mk [] 0 0).set_pos.pos
        (Cell.mk [] 0 0).set_pos.total_mass = Body.mk 0 0 1 :=
  ⟨rfl, zero_mass_cell_contributes_nothing (Cell.mk [] 0 0) (Body.mk 0 0 1) rfl⟩

/-! ## Merge products: claim C3 -/

/-- C3: for every merge performed by `update_bodies`, the product body of a
chain `S` has mass equal to the sum of the masses over `S`, and both its
momentum `mass * speed` and its mass-weighted position `mass * pos` equal
the corresponding sums over `S` (mass and momentum are conserved by the
mass-weighted averages). -/
theorem mergeChain_conserves_mass_and_momentum (bodies : Store) (chain : List ℕ)
    (h : (chain.map fun id => (getBody bodies id).mass).sum ≠ 0) :
    (mergeChain bodies chain).mass = (chain.map fun id => (getBody bodies id).mass).sum ∧
      ((mergeChain bodies chain).mass : ℂ) * (mergeChain bodies chain).speed =
        (chain.map fun id => ((getBody bodies id).mass : ℂ) * (getBody bodies id).speed).sum ∧
      ((mergeChain bodies chain).mass : ℂ) * (mergeChain bodies chain).pos =
        (chain.map fun id => ((getBody bodies id).mass : ℂ) * (getBody bodies id).pos).sum := by
  have hc : ((chain.map fun id => (getBody bodies id).mass).sum : ℂ) ≠ 0 :=
    Complex.ofReal_ne_zero.mpr h
  refine ⟨rfl, ?_, ?_⟩ <;>
    simp only [mergeChain] <;>
    rw [mul_div_cancel₀ _ hc]

/-- C3, witness: a two-body chain with masses 1 and 3. -/
theorem mergeChain_conserves_witness :
    ((([0, 1] : List ℕ).map fun id =>
        (getBody [(0, Body.mk 0 0 1), (1, Body.mk 2 2 3)] id).mass).sum ≠ 0) ∧
      (mergeChain [(0, Body.mk 0 0 1), (1, Body.mk 2 2 3)] [0, 1]).mass =
        (([0, 1] : List ℕ).map fun id =>
          (getBody [(0, Body.mk 0 0 1), (1, Body.mk 2 2 3)] id).mass).sum := by
  have h : (([0, 1] : List ℕ).map fun id =>
      (getBody [(0, Body.mk 0 0 1), (1, Body.mk 2 2 3)] id).mass).sum ≠ 0 := by
    simp [getBody, List.lookup]
    norm_num
  exact ⟨h, (mergeChain_conserves_mass_and_momentum _ _ h).1⟩

/-! ## Barnes-Hut force evaluation: claim C6 -/

/-- C6: the branch structure of `QuadtreeNode::adjust_speed`.  A node with 0
members contributes nothing; a node with 1 member applies the pairwise force
from its aggregate unless the target is its member; a node with at least 2
members is applied as a single point mass exactly when
`square.size / |node.pos - target.pos| ≤ theta` and the target is not a
member, and in every other case the evaluation recurses into all 4 children
in order. -/
theorem adjust_speed_branching (children : Option (QTree × QTree × QTree × QTree))
    (nb : NodeBodies) (square : Square) (total_mass : ℝ) (pos : ℂ)
    (theta : ℝ) (len : ℕ) (id : ℕ) (b : Body) :
    (countNode nb len = 0 →
      (QTree.mk children nb square total_mass pos).adjust_speed theta len id b = some b) ∧
    (countNode nb len = 1 → isMember nb id →
      (QTree.mk children nb square total_mass pos).adjust_speed theta len id b = some b) ∧
    (countNode nb len = 1 → ¬ isMember nb id →
      (QTree.mk children nb square total_mass pos).adjust_speed theta len id b =
        some (b.adjust_speed pos total_mass)) ∧
    (2 ≤ countNode nb len →
      (square.size / Complex.abs (pos - b.pos) ≤ theta ∧ ¬ isMember nb id) →
      (QTree.mk children nb square total_mass pos).adjust_speed theta len id b =
        some (b.adjust_speed pos total_mass)) ∧
    (2 ≤ countNode nb len →
      ¬ (square.size / Complex.abs (pos - b.pos) ≤ theta ∧ ¬ isMember nb id) →
      (QTree.mk children nb square total_mass pos).adjust_speed theta len id b =
        match children with
        | none => none
        | some cs =>
          (cs.1.adjust_speed theta len id b).bind fun b1 =>
            (cs.2.1.adjust_speed theta len id b1).bind fun b2 =>
              (cs.2.2.1.adjust_speed theta len id b2).bind fun b3 =>
                cs.2.2.2.adjust_speed theta len id b3) := by
  refine ⟨?_, ?_, ?_, ?_, ?_⟩
  · intro h0
    unfold QTree.adjust_speed
    simp [h0]
  · intro h1 hm
    unfold QTree.adjust_speed
    simp [h1, hm]
  · intro h1 hm
    unfold QTree.adjust_speed
    simp [h1, hm]
  · intro h2 hacc
    have h0 : countNode nb len ≠ 0 := by omega
    have h1 : countNode nb len ≠ 1 := by omega
    unfold QTree.adjust_speed
    simp [h0, h1, hacc.1, hacc.2]
  · intro h2 hacc
    have h0 : countNode nb len ≠ 0 := by omega
    have h1 : countNode nb len ≠ 1 := by omega
    cases children with
    | none =>
        unfold QTree.adjust_speed
        simp [h0, h1, if_neg hacc]
    | some cs =>
        obtain ⟨c00, c01, c10, c11⟩ := cs
        conv_lhs => unfold QTree.adjust_speed
        simp [h0, h1, if_neg hacc]

/-- C6, witness: a leaf node holding one member that is not the target
receives the pairwise aggregate force. -/
theorem adjust_speed_branching_witness :
    countNode (.bodies [3]) 5 = 1 ∧ ¬ isMember (.bodies [3]) 7 ∧
      (QTree.mk none (.bodies [3]) ⟨0, 1⟩ 2 ⟨4, 0⟩).adjust_speed 0 5 7 (Body.mk 0 0 1) =
        some ((Body.mk 0 0 1).adjust_speed ⟨4, 0⟩ 2) := by
  have hm : ¬ isMember (.bodies [3]) 7 := by simp [isMember]
  exact ⟨rfl, hm,
    (adjust_speed_branching none (.bodies [3]) ⟨0, 1⟩ 2 ⟨4, 0⟩ 0 5 7 (Body.mk 0 0 1)).2.2.1
      rfl hm⟩

/-! ## Quadtree build safety: claim C10 -/

theorem split_leaf (bodies : Store) (fuel : ℕ) (t : QTree)
    (hc : countNode t.nodeBodies bodies.length ≤ 1) : split fuel bodies t = some t := by
  cases fuel <;> simp [split, hc]

theorem finalizeChild_children (sq : Square) (i j : ℕ) (a : ChildAcc) :
    (finalizeChild sq i j a).children = none := rfl

theorem WF_of_childless (bodies_len : ℕ) (nb : NodeBodies) (sq : Square) (m : ℝ) (p : ℂ)
    (hc : countNode nb bodies_len ≤ 1) : (QTree.mk none nb sq m p).WF bodies_len :=
  ⟨fun h2 => absurd h2 (by omega), trivial⟩

theorem split_WF (bodies : Store) :
    ∀ (fuel : ℕ) (t t' : QTree), t.children = none → split fuel bodies t = some t' →
      t'.WF bodies.length := by
  intro fuel
  induction fuel with
  | zero =>
      intro t t' hch hs
      cases t with
      | mk children nb sq m p =>
          simp only [QTree.children] at hch
          subst hch
          rw [split] at hs
          by_cases hc : countNode (QTree.mk none nb sq m p).nodeBodies bodies.length ≤ 1
          · rw [if_pos hc] at hs
            cases hs
            exact WF_of_childless _ _ _ _ _ hc
          · rw [if_neg hc] at hs
            cases hs
  | succ fuel ih =>
      intro t t' hch hs
      cases t with
      | mk children nb sq m p =>
          simp only [QTree.children] at hch
          subst hch
          rw [split] at hs
          simp only [QTree.nodeBodies, QTree.square, QTree.total_mass, QTree.pos] at hs
          by_cases hc : countNode nb bodies.length ≤ 1
          · rw [if_pos hc] at hs
            cases hs
            exact WF_of_childless _ _ _ _ _ hc
          · rw [if_neg hc] at hs
            rcases ha : assignAll sq bodies (memberList nb bodies) with _ | cs
            · simp only [ha] at hs
              exact Option.noConfusion hs
            · simp only [ha] at hs
              rcases h00 : split fuel bodies (finalizeChild sq 0 0 cs.1.1) with _ | d00
              · simp only [h00] at hs
                exact Option.noConfusion hs
              rcases h01 : split fuel bodies (finalizeChild sq 0 1 cs.1.2) with _ | d01
              · simp only [h00, h01] at hs
                exact Option.noConfusion hs
              rcases h10 : split fuel bodies (finalizeChild sq 1 0 cs.2.1) with _ | d10
              · simp only [h00, h01, h10] at hs
                exact Option.noConfusion hs
              rcases h11 : split fuel bodies (finalizeChild sq 1 1 cs.2.2) with _ | d11
              · simp only [h00, h01, h10, h11] at hs
                exact Option.noConfusion hs
              simp only [h00, h01, h10, h11, Option.some.injEq] at hs
              subst hs
              exact ⟨fun _ => rfl,
                ih _ _ (finalizeChild_children sq 0 0 cs.1.1) h00,
                ih _ _ (finalizeChild_children sq 0 1 cs.1.2) h01,
                ih _ _ (finalizeChild_children sq 1 0 cs.2.1) h10,
                ih _ _ (finalizeChild_children sq 1 1 cs.2.2) h11⟩

theorem adjust_speed_isSome_of_WF (len : ℕ) :
    ∀ (n : ℕ) (t : QTree), t.size ≤ n → t.WF len →
      ∀ (theta : ℝ) (id : ℕ) (b : Body), (t.adjust_speed theta len id b).isSome = true := by
  intro n
  induction n with
  | zero =>
      intro t hsize
      cases t with
      | mk children nb sq m p =>
          exfalso
          cases children with
          | none => simp [QTree.size] at hsize
          | some cs =>
              obtain ⟨a, b, c, d⟩ := cs
              simp [QTree.size] at hsize
  | succ n ih =>
      intro t hsize hwf theta id b
      cases t with
      | mk children nb sq m p =>
          unfold QTree.adjust_speed
          by_cases h0 : countNode nb len = 0
          · simp [h0]
          by_cases h1 : countNode nb len = 1
          · by_cases hm : isMember nb id <;> simp [h0, h1, hm]
          by_cases hacc : sq.size / Complex.abs (p - b.pos) ≤ theta ∧ ¬ isMember nb id
          · simp [h0, h1, hacc]
          · simp only [h0, h1, if_false, if_neg hacc]
            have h2 : 2 ≤ countNode nb len := by omega
            unfold QTree.WF at hwf
            obtain ⟨hsome, hrec⟩ := hwf
            cases children with
            | none =>
                simp only [Option.isSome_none] at hsome
                exact absurd (hsome h2) (by simp)
            | some cs =>
                obtain ⟨c00, c01, c10, c11⟩ := cs
                obtain ⟨w00, w01, w10, w11⟩ := hrec
                have hs : c00.size + c01.size + c10.size + c11.size + 1 ≤ n + 1 := by
                  simpa [QTree.size] using hsize
                change (((c00.adjust_speed theta len id b).bind fun b1 =>
                  (c01.adjust_speed theta len id b1).bind fun b2 =>
                    (c10.adjust_speed theta len id b2).bind fun b3 =>
                      c11.adjust_speed theta len id b3)).isSome = true
                have r00 := ih c00 (by omega) w00 theta id b
                rw [Option.isSome_iff_exists] at r00
                obtain ⟨b1, e00⟩ := r00
                rw [e00, Option.some_bind]
                have r01 := ih c01 (by omega) w01 theta id b1
                rw [Option.isSome_iff_exists] at r01
                obtain ⟨b2, e01⟩ := r01
                rw [e01, Option.some_bind]
                have r10 := ih c10 (by omega) w10 theta id b2
                rw [Option.isSome_iff_exists] at r10
                obtain ⟨b3, e10⟩ := r10
                rw [e10, Option.some_bind]
                exact ih c11 (by omega) w11 theta id b3

/-- C10: every tree produced by `QuadtreeNode::split` from a childless
starting node (in particular the root built by `BarnesHut::handle`) is
well-formed: every node with at least two members has its 4 children set,
and consequently `adjust_speed` - whose recursion branch calls
`children.unwrap()` - never reaches the panicking `none` case, for any
target body. -/
theorem split_adjust_speed_no_panic (bodies : Store) (fuel : ℕ) (t0 t : QTree)
    (hch : t0.children = none) (hs : split fuel bodies t0 = some t) :
    t.WF bodies.length ∧
      ∀ (theta : ℝ) (id : ℕ) (b : Body),
        (t.adjust_speed theta bodies.length id b).isSome = true := by
  have hwf := split_WF bodies fuel t0 t hch hs
  exact ⟨hwf, fun theta id b =>
    adjust_speed_isSome_of_WF bodies.length t.size t le_rfl hwf theta id b⟩

/-! ## Quadtree aggregates: claim C7 -/

theorem lookup_mem {s : Store} {id : ℕ} {b : Body} (h : List.lookup id s = some b) :
    (id, b) ∈ s := by
  induction s with
  | nil => simp [List.lookup] at h
  | cons p s ih =>
      obtain ⟨k, v⟩ := p
      rw [List.lookup_cons] at h
      by_cases hk : id = k
      · simp [hk] at h
        subst h
        subst hk
        exact List.mem_cons_self _ _
      · have : (id == k) = false := beq_false_of_ne hk
        rw [this] at h
        exact List.mem_cons_of_mem _ (ih h)

theorem getBody_mass_nonneg {bodies : Store} (hm : ∀ p ∈ bodies, 0 ≤ p.2.mass) (id : ℕ) :
    0 ≤ (getBody bodies id).mass := by
  unfold getBody
  rcases hl : List.lookup id bodies with _ | b
  · simp
  · simpa using hm (id, b) (lookup_mem hl)

theorem list_sum_zero_of_nonneg {l : List ℝ} (h : ∀ x ∈ l, 0 ≤ x) (h0 : l.sum = 0) :
    ∀ x ∈ l, x = 0 := by
  induction l with
  | nil => simp
  | cons a l ih =>
      have ha : 0 ≤ a := h a (List.mem_cons_self _ _)
      have hl : 0 ≤ l.sum := List.sum_nonneg fun x hx => h x (List.mem_cons_of_mem _ hx)
      rw [List.sum_cons] at h0
      have ha0 : a = 0 := by linarith
      have hl0 : l.sum = 0 := by linarith
      intro x hx
      rcases List.mem_cons.mp hx with rfl | hx
      · exact ha0
      · exact ih (fun y hy => h y (List.mem_cons_of_mem _ hy)) hl0 x hx

/-- The aggregate invariant of claim C7 for one node: `total_mass` is the
sum of the member masses, and `pos` is the mass-weighted mean of the member
positions, zero when the aggregate mass is zero. -/
def nodeAggOK (bodies : Store) (t : QTree) : Prop :=
  t.total_mass = ((memberList t.nodeBodies bodies).map fun id => (getBody bodies id).mass).sum ∧
    (t.total_mass ≠ 0 → t.pos =
      ((memberList t.nodeBodies bodies).map fun id =>
        (getBody bodies id).pos * ((getBody bodies id).mass : ℂ)).sum / (t.total_mass : ℂ)) ∧
    (t.total_mass = 0 → t.pos = 0)

/-- The accumulation invariant of one in-progress child during a split. -/
def accOK (bodies : Store) (a : ChildAcc) : Prop :=
  a.2.1 = (a.1.map fun id => (getBody bodies id).mass).sum ∧
    a.2.2 = (a.1.map fun id => (getBody bodies id).pos * ((getBody bodies id).mass : ℂ)).sum

theorem accOK_empty (bodies : Store) : accOK bodies ([], 0, 0) := by
  constructor <;> simp [accOK]

theorem accOK_add {bodies : Store} {a : ChildAcc} {id : ℕ} {b : Body}
    (hb : List.lookup id bodies = some b) (ha : accOK bodies a) :
    accOK bodies (addToChild a id b) := by
  obtain ⟨h1, h2⟩ := ha
  have hgb : getBody bodies id = b := by simp [getBody, hb]
  refine ⟨?_, ?_⟩ <;> simp [addToChild, h1, h2, hgb]

theorem updC_accOK {bodies : Store} {c c' : Children4 ChildAcc} {i j : ℕ} {id : ℕ} {b : Body}
    (hb : List.lookup id bodies = some b)
    (hc : accOK bodies c.1.1 ∧ accOK bodies c.1.2 ∧ accOK bodies c.2.1 ∧ accOK bodies c.2.2)
    (h : updC c i j (fun a => addToChild a id b) = some c') :
    accOK bodies c'.1.1 ∧ accOK bodies c'.1.2 ∧ accOK bodies c'.2.1 ∧ accOK bodies c'.2.2 := by
  obtain ⟨h11, h12, h21, h22⟩ := hc
  match i, j, h with
  | 0, 0, h => cases h; exact ⟨accOK_add hb h11, h12, h21, h22⟩
  | 0, 1, h => cases h; exact ⟨h11, accOK_add hb h12, h21, h22⟩
  | 1, 0, h => cases h; exact ⟨h11, h12, accOK_add hb h21, h22⟩
  | 1, 1, h => cases h; exact ⟨h11, h12, h21, accOK_add hb h22⟩

theorem assignAll_accOK {square : Square} {bodies : Store} :
    ∀ (members : List ℕ) (c cs : Children4 ChildAcc),
      (accOK bodies c.1.1 ∧ accOK bodies c.1.2 ∧ accOK bodies c.2.1 ∧ accOK bodies c.2.2) →
      members.foldlM
        (fun cs id =>
          match List.lookup id bodies with
          | none => none
          | some b =>
              updC cs (childIndex square b).1 (childIndex square b).2 fun a => addToChild a id b)
        c = some cs →
      accOK bodies cs.1.1 ∧ accOK bodies cs.1.2 ∧ accOK bodies cs.2.1 ∧ accOK bodies cs.2.2 := by
  intro members
  induction members with
  | nil =>
      intro c cs hc h
      rw [List.foldlM_nil] at h
      cases h
      exact hc
  | cons id rest ih =>
      intro c cs hc h
      rw [List.foldlM_cons] at h
      rcases hb : List.lookup id bodies with _ | b
      · simp [hb] at h
      · rcases hu : updC c (childIndex square b).1 (childIndex square b).2
            (fun a => addToChild a id b) with _ | c'
        · simp [hb, hu] at h
        · simp only [hb, hu, Option.bind_eq_bind, Option.some_bind] at h
          exact ih c' cs (updC_accOK hb hc hu) h

theorem finalizeChild_aggOK {bodies : Store} {a : ChildAcc}
    (hm : ∀ p ∈ bodies, 0 ≤ p.2.mass) (ha : accOK bodies a) (square : Square) (i j : ℕ) :
    nodeAggOK bodies (finalizeChild square i j a) := by
  obtain ⟨h1, h2⟩ := ha
  unfold nodeAggOK finalizeChild
  simp only [QTree.total_mass, QTree.pos, QTree.nodeBodies, memberList]
  by_cases hz : a.2.1 ≠ 0
  · refine ⟨h1, fun _ => ?_, fun h0 => absurd h0 hz⟩
    rw [if_pos hz, h2, h1]
  · push_neg at hz
    refine ⟨h1, fun hne => absurd hz hne, fun _ => ?_⟩
    rw [if_neg (by simpa using hz), h2]
    apply List.sum_eq_zero
    intro x hx
    rw [List.mem_map] at hx
    obtain ⟨id, hid, rfl⟩ := hx
    have : (getBody bodies id).mass = 0 := by
      refine list_sum_zero_of_nonneg ?_ (h1 ▸ hz) _
        (List.mem_map_of_mem (fun id => (getBody bodies id).mass) hid)
      intro y hy
      rw [List.mem_map] at hy
      obtain ⟨id', _, rfl⟩ := hy
      exact getBody_mass_nonneg hm id'
    simp [this]

/-- All nodes of a built tree, root first. -/
def QTree.allNodes : QTree → List QTree
  | .mk none nb sq m p => [.mk none nb sq m p]
  | .mk (some (a, b, c, d)) nb sq m p =>
      .mk (some (a, b, c, d)) nb sq m p :: (a.allNodes ++ b.allNodes ++ c.allNodes ++ d.allNodes)

theorem nodeAggOK_of_fields {bodies : Store} {t t' : QTree}
    (hnb : t'.nodeBodies = t.nodeBodies) (hm : t'.total_mass = t.total_mass)
    (hp : t'.pos = t.pos) (h : nodeAggOK bodies t) : nodeAggOK bodies t' := by
  unfold nodeAggOK at h ⊢
  rw [hnb, hm, hp]
  exact h

theorem split_fields (bodies : Store) (fuel : ℕ) (t t' : QTree)
    (hs : split fuel bodies t = some t') :
    t'.nodeBodies = t.nodeBodies ∧ t'.square = t.square ∧
      t'.total_mass = t.total_mass ∧ t'.pos = t.pos := by
  cases fuel with
  | zero =>
      rw [split] at hs
      by_cases hc : countNode t.nodeBodies bodies.length ≤ 1
      · rw [if_pos hc] at hs
        cases hs
        exact ⟨rfl, rfl, rfl, rfl⟩
      · rw [if_neg hc] at hs
        exact Option.noConfusion hs
  | succ fuel =>
      rw [split] at hs
      by_cases hc : countNode t.nodeBodies bodies.length ≤ 1
      · rw [if_pos hc] at hs
        cases hs
        exact ⟨rfl, rfl, rfl, rfl⟩
      · rw [if_neg hc] at hs
        rcases ha : assignAll t.square bodies (memberList t.nodeBodies bodies) with _ | cs
        · simp only [ha] at hs
          exact Option.noConfusion hs
        · simp only [ha] at hs
          rcases h00 : split fuel bodies (finalizeChild t.square 0 0 cs.1.1) with _ | d00
          · simp only [h00] at hs
            exact Option.noConfusion hs
          rcases h01 : split fuel bodies (finalizeChild t.square 0 1 cs.1.2) with _ | d01
          · simp only [h00, h01] at hs
            exact Option.noConfusion hs
          rcases h10 : split fuel bodies (finalizeChild t.square 1 0 cs.2.1) with _ | d10
          · simp only [h00, h01, h10] at hs
            exact Option.noConfusion hs
          rcases h11 : split fuel bodies (finalizeChild t.square 1 1 cs.2.2) with _ | d11
          · simp only [h00, h01, h10, h11] at hs
            exact Option.noConfusion hs
          simp only [h00, h01, h10, h11, Option.some.injEq] at hs
          subst hs
          exact ⟨rfl, rfl, rfl, rfl⟩

theorem split_allNodes_aggOK (bodies : Store) (hm : ∀ p ∈ bodies, 0 ≤ p.2.mass) :
    ∀ (fuel : ℕ) (t t' : QTree), t.children = none → nodeAggOK bodies t →
      split fuel bodies t = some t' → ∀ u ∈ t'.allNodes, nodeAggOK bodies u := by
  intro fuel
  induction fuel with
  | zero =>
      intro t t' hch ht hs
      cases t with
      | mk children nb sq m p =>
          simp only [QTree.children] at hch
          subst hch
          rw [split] at hs
          by_cases hc : countNode (QTree.mk none nb sq m p).nodeBodies bodies.length ≤ 1
          · rw [if_pos hc] at hs
            cases hs
            intro u hu
            simp only [QTree.allNodes, List.mem_singleton] at hu
            subst hu
            exact ht
          · rw [if_neg hc] at hs
            exact Option.noConfusion hs
  | succ fuel ih =>
      intro t t' hch ht hs
      cases t with
      | mk children nb sq m p =>
          simp only [QTree.children] at hch
          subst hch
          rw [split] at hs
          simp only [QTree.nodeBodies, QTree.square, QTree.total_mass, QTree.pos] at hs
          by_cases hc : countNode nb bodies.length ≤ 1
          · rw [if_pos hc] at hs
            cases hs
            intro u hu
            simp only [QTree.allNodes, List.mem_singleton] at hu
            subst hu
            exact ht
          · rw [if_neg hc] at hs
            rcases ha : assignAll sq bodies (memberList nb bodies) with _ | cs
            · simp only [ha] at hs
              exact Option.noConfusion hs
            · simp only [ha] at hs
              rcases h00 : split fuel bodies (finalizeChild sq 0 0 cs.1.1) with _ | d00
              · simp only [h00] at hs
                exact Option.noConfusion hs
              rcases h01 : split fuel bodies (finalizeChild sq 0 1 cs.1.2) with _ | d01
              · simp only [h00, h01] at hs
                exact Option.noConfusion hs
              rcases h10 : split fuel bodies (finalizeChild sq 1 0 cs.2.1) with _ | d10
              · simp only [h00, h01, h10] at hs
                exact Option.noConfusion hs
              rcases h11 : split fuel bodies (finalizeChild sq 1 1 cs.2.2) with _ | d11
              · simp only [h00, h01, h10, h11] at hs
                exact Option.noConfusion hs
              simp only [h00, h01, h10, h11, Option.some.injEq] at hs
              subst hs
              have hacc : accOK bodies cs.1.1 ∧ accOK bodies cs.1.2 ∧
                  accOK bodies cs.2.1 ∧ accOK bodies cs.2.2 :=
                assignAll_accOK (memberList nb bodies) _ cs
                  ⟨accOK_empty bodies, accOK_empty bodies, accOK_empty bodies, accOK_empty bodies⟩
                  ha
              intro u hu
              simp only [QTree.allNodes, List.mem_cons, List.mem_append] at hu
              rcases hu with rfl | ⟨(hu | hu) | hu⟩ | hu
              · exact nodeAggOK_of_fields rfl rfl rfl ht
              · exact ih _ _ (finalizeChild_children sq 0 0 cs.1.1)
                  (finalizeChild_aggOK hm hacc.1 sq 0 0) h00 u hu
              · exact ih _ _ (finalizeChild_children sq 0 1 cs.1.2)
                  (finalizeChild_aggOK hm hacc.2.1 sq 0 1) h01 u hu
              · exact ih _ _ (finalizeChild_children sq 1 0 cs.2.1)
                  (finalizeChild_aggOK hm hacc.2.2.1 sq 1 0) h10 u hu
              · exact ih _ _ (finalizeChild_children sq 1 1 cs.2.2)
                  (finalizeChild_aggOK hm hacc.2.2.2 sq 1 1) h11 u hu

theorem split_children_aggOK (bodies : Store) (hm : ∀ p ∈ bodies, 0 ≤ p.2.mass)
    (fuel : ℕ) (t t' : QTree) (hch : t.children = none)
    (hs : split fuel bodies t = some t') :
    ∀ cs, t'.children = some cs →
      ∀ u ∈ cs.1.allNodes ++ cs.2.1.allNodes ++ cs.2.2.1.allNodes ++ cs.2.2.2.allNodes,
        nodeAggOK bodies u := by
  cases t with
  | mk children nb sq m p =>
      simp only [QTree.children] at hch
      subst hch
      cases fuel with
      | zero =>
          rw [split] at hs
          by_cases hc : countNode (QTree.mk none nb sq m p).nodeBodies bodies.length ≤ 1
          · rw [if_pos hc] at hs
            cases hs
            intro cs hcs
            exact Option.noConfusion hcs
          · rw [if_neg hc] at hs
            exact Option.noConfusion hs
      | succ fuel =>
          rw [split] at hs
          simp only [QTree.nodeBodies, QTree.square, QTree.total_mass, QTree.pos] at hs
          by_cases hc : countNode nb bodies.length ≤ 1
          · rw [if_pos hc] at hs
            cases hs
            intro cs hcs
            exact Option.noConfusion hcs
          · rw [if_neg hc] at hs
            rcases ha : assignAll sq bodies (memberList nb bodies) with _ | cs0
            · simp only [ha] at hs
              exact Option.noConfusion hs
            · simp only [ha] at hs
              rcases h00 : split fuel bodies (finalizeChild sq 0 0 cs0.1.1) with _ | d00
              · simp only [h00] at hs
                exact Option.noConfusion hs
              rcases h01 : split fuel bodies (finalizeChild sq 0 1 cs0.1.2) with _ | d01
              · simp only [h00, h01] at hs
                exact Option.noConfusion hs
              rcases h10 : split fuel bodies (finalizeChild sq 1 0 cs0.2.1) with _ | d10
              · simp only [h00, h01, h10] at hs
                exact Option.noConfusion hs
              rcases h11 : split fuel bodies (finalizeChild sq 1 1 cs0.2.2) with _ | d11
              · simp only [h00, h01, h10, h11] at hs
                exact Option.noConfusion hs
              simp only [h00, h01, h10, h11, Option.some.injEq] at hs
              subst hs
              intro cs hcs
              simp only [QTree.children, Option.some.injEq] at hcs
              subst hcs
              have hacc : accOK bodies cs0.1.1 ∧ accOK bodies cs0.1.2 ∧
                  accOK bodies cs0.2.1 ∧ accOK bodies cs0.2.2 :=
                assignAll_accOK (memberList nb bodies) _ cs0
                  ⟨accOK_empty bodies, accOK_empty bodies, accOK_empty bodies, accOK_empty bodies⟩
                  ha
              intro u hu
              simp only [List.mem_append] at hu
              rcases hu with ((hu | hu) | hu) | hu
              · exact split_allNodes_aggOK bodies hm fuel _ _
                  (finalizeChild_children sq 0 0 cs0.1.1)
                  (finalizeChild_aggOK hm hacc.1 sq 0 0) h00 u hu
              · exact split_allNodes_aggOK bodies hm fuel _ _
                  (finalizeChild_children sq 0 1 cs0.1.2)
                  (finalizeChild_aggOK hm hacc.2.1 sq 0 1) h01 u hu
              · exact split_allNodes_aggOK bodies hm fuel _ _
                  (finalizeChild_children sq 1 0 cs0.2.1)
                  (finalizeChild_aggOK hm hacc.2.2.1 sq 1 0) h10 u hu
              · exact split_allNodes_aggOK bodies hm fuel _ _
                  (finalizeChild_children sq 1 1 cs0.2.2)
                  (finalizeChild_aggOK hm hacc.2.2.2 sq 1 1) h11 u hu

/-- C7, amended: in every quadtree built by a Barnes-Hut pass, every node
created by `QuadtreeNode::split` - that is, every node strictly below the
root - satisfies the aggregate invariant: `total_mass` is the sum of its
member masses and `pos` is the mass-weighted mean of their positions (zero
when the aggregate mass is zero).  The root is the exception: its
aggregates keep their initialization values `0` and are never recomputed
(see the counterexample). -/
theorem handleTree_subnodes_aggOK (fuel : ℕ) (bodies : Store)
    (hm : ∀ p ∈ bodies, 0 ≤ p.2.mass) (t : QTree)
    (hs : BarnesHut.handleTree fuel bodies = some t) :
    ∀ cs, t.children = some cs →
      ∀ u ∈ cs.1.allNodes ++ cs.2.1.allNodes ++ cs.2.2.1.allNodes ++ cs.2.2.2.allNodes,
        nodeAggOK bodies u :=
  split_children_aggOK bodies hm fuel
    (QTree.mk none NodeBodies.all (boundingSquare (get_rectangle bodies)) 0 0) t rfl hs

/-! ## A concrete two-body store and its quadtree -/

noncomputable section

/-- A body of mass 1 at the origin, at rest. -/
def sampleA : Body := ⟨0, 0, 1⟩

/-- A body of mass 1 at `(3, 0)`, at rest. -/
def sampleB : Body := ⟨3, 0, 1⟩

/-- A two-body store whose bodies are well separated. -/
def sampleStore : Store := [(0, sampleA), (1, sampleB)]

def sampleLeaf00 : QTree := .mk none (.bodies [0]) ⟨⟨0, -(3 / 2)⟩, 2⟩ 1 0

def sampleLeaf01 : QTree := .mk none (.bodies [1]) ⟨⟨2, -(3 / 2)⟩, 2⟩ 1 3

def sampleLeaf10 : QTree := .mk none (.bodies []) ⟨⟨0, 1 / 2⟩, 2⟩ 0 0

def sampleLeaf11 : QTree := .mk none (.bodies []) ⟨⟨2, 1 / 2⟩, 2⟩ 0 0

/-- The tree `BarnesHut::handle` builds over `sampleStore`. -/
def sampleTree : QTree :=
  .mk (some (sampleLeaf00, sampleLeaf01, sampleLeaf10, sampleLeaf11)) .all ⟨⟨0, -(3 / 2)⟩, 4⟩ 0 0

end

theorem get_rectangle_sample : get_rectangle sampleStore = ⟨⟨0, 0⟩, ⟨4, 1⟩⟩ := by
  unfold get_rectangle sampleStore sampleA sampleB
  simp [listMin, listMax, Body.get_radius, Real.one_rpow, Complex.ext_iff]
  norm_num

theorem boundingSquare_sample : boundingSquare ⟨⟨0, 0⟩, ⟨4, 1⟩⟩ = ⟨⟨0, -(3 / 2)⟩, 4⟩ := by
  unfold boundingSquare
  rw [if_pos (by norm_num)]
  simp [Complex.ext_iff]
  norm_num

theorem childIndex_sample_A : childIndex ⟨⟨0, -(3 / 2)⟩, 4⟩ sampleA = (0, 0) := by
  unfold childIndex sampleA
  norm_num [Int.floor_eq_iff]

theorem childIndex_sample_B : childIndex ⟨⟨0, -(3 / 2)⟩, 4⟩ sampleB = (0, 1) := by
  unfold childIndex sampleB
  norm_num [Int.floor_eq_iff]

theorem assignAll_sample :
    assignAll ⟨⟨0, -(3 / 2)⟩, 4⟩ sampleStore [0, 1] =
      some ((([0], 1, 0), ([1], 1, 3)), (([], 0, 0), ([], 0, 0))) := by
  have l0 : List.lookup 0 sampleStore = some sampleA := by simp [sampleStore, List.lookup]
  have l1 : List.lookup 1 sampleStore = some sampleB := by simp [sampleStore, List.lookup]
  unfold assignAll
  simp only [List.foldlM_cons, List.foldlM_nil, l0, l1, childIndex_sample_A, childIndex_sample_B,
    updC, addToChild, Option.some_bind, Option.bind_eq_bind]
  unfold sampleA sampleB
  norm_num

theorem finalize_sample_00 :
    finalizeChild ⟨⟨0, -(3 / 2)⟩, 4⟩ 0 0 ([0], 1, 0) = sampleLeaf00 := by
  unfold finalizeChild sampleLeaf00
  rw [if_pos (by norm_num : (1 : ℝ) ≠ 0)]
  norm_num [Complex.ext_iff]

theorem finalize_sample_01 :
    finalizeChild ⟨⟨0, -(3 / 2)⟩, 4⟩ 0 1 ([1], 1, 3) = sampleLeaf01 := by
  unfold finalizeChild sampleLeaf01
  rw [if_pos (by norm_num : (1 : ℝ) ≠ 0)]
  norm_num [Complex.ext_iff]

theorem finalize_sample_10 :
    finalizeChild ⟨⟨0, -(3 / 2)⟩, 4⟩ 1 0 ([], 0, 0) = sampleLeaf10 := by
  unfold finalizeChild sampleLeaf10
  rw [if_neg (by norm_num : ¬ (0 : ℝ) ≠ 0)]
  norm_num [Complex.ext_iff]

theorem finalize_sample_11 :
    finalizeChild ⟨⟨0, -(3 / 2)⟩, 4⟩ 1 1 ([], 0, 0) = sampleLeaf11 := by
  unfold finalizeChild sampleLeaf11
  rw [if_neg (by norm_num : ¬ (0 : ℝ) ≠ 0)]
  norm_num [Complex.ext_iff]

theorem split_sample :
    split 1 sampleStore (.mk none .all ⟨⟨0, -(3 / 2)⟩, 4⟩ 0 0) = some sampleTree := by
  rw [split]
  rw [if_neg (by norm_num [countNode, QTree.nodeBodies, sampleStore])]
  have hmem : memberList (QTree.mk none .all ⟨⟨0, -(3 / 2)⟩, 4⟩ 0 0).nodeBodies sampleStore
      = [0, 1] := by
    simp [memberList, QTree.nodeBodies, Store.keys, sampleStore]
  rw [hmem]
  rw [show (QTree.mk none .all ⟨⟨0, -(3 / 2)⟩, 4⟩ 0 0).square = ⟨⟨0, -(3 / 2)⟩, 4⟩ from rfl]
  rw [assignAll_sample]
  simp only [finalize_sample_00, finalize_sample_01, finalize_sample_10, finalize_sample_11]
  rw [split_leaf sampleStore 0 sampleLeaf00 (by norm_num [countNode, QTree.nodeBodies, sampleLeaf00]),
    split_leaf sampleStore 0 sampleLeaf01 (by norm_num [countNode, QTree.nodeBodies, sampleLeaf01]),
    split_leaf sampleStore 0 sampleLeaf10 (by norm_num [countNode, QTree.nodeBodies, sampleLeaf10]),
    split_leaf sampleStore 0 sampleLeaf11 (by norm_num [countNode, QTree.nodeBodies, sampleLeaf11])]
  rfl

theorem handleTree_sample : BarnesHut.handleTree 1 sampleStore = some sampleTree := by
  unfold BarnesHut.handleTree
  rw [get_rectangle_sample, boundingSquare_sample]
  exact split_sample

theorem sampleStore_masses_nonneg : ∀ p ∈ sampleStore, 0 ≤ p.2.mass := by
  intro p hp
  simp only [sampleStore, List.mem_cons, List.not_mem_nil, or_false] at hp
  rcases hp with rfl | rfl <;> norm_num [sampleA, sampleB]

/-- C7, counterexample: in the quadtree built by a Barnes-Hut pass over
`sampleStore` (two unit masses), the root node keeps its initialization
aggregates: its `total_mass` is `0` although the sum of its member masses is
`2`, so the claim fails for the root. -/
theorem root_aggregate_invariant_fails :
    BarnesHut.handleTree 1 sampleStore = some sampleTree ∧
      sampleTree.total_mass = 0 ∧
      ((memberList sampleTree.nodeBodies sampleStore).map fun id =>
        (getBody sampleStore id).mass).sum = 2 ∧
      ¬ nodeAggOK sampleStore sampleTree := by
  have hsum : ((memberList sampleTree.nodeBodies sampleStore).map fun id =>
      (getBody sampleStore id).mass).sum = 2 := by
    simp [sampleTree, QTree.nodeBodies, memberList, Store.keys, sampleStore, getBody,
      List.lookup, sampleA, sampleB]
    norm_num
  refine ⟨handleTree_sample, rfl, hsum, fun h => ?_⟩
  have h1 := h.1
  rw [hsum] at h1
  norm_num [sampleTree, QTree.total_mass] at h1

/-- C7, witness for the amended theorem: the first child of the sample tree
satisfies the aggregate invariant. -/
theorem handleTree_subnodes_aggOK_witness : nodeAggOK sampleStore sampleLeaf00 :=
  handleTree_subnodes_aggOK 1 sampleStore sampleStore_masses_nonneg sampleTree handleTree_sample
    (sampleLeaf00, sampleLeaf01, sampleLeaf10, sampleLeaf11) rfl sampleLeaf00
    (by simp [sampleLeaf00, sampleLeaf01, sampleLeaf10, sampleLeaf11, QTree.allNodes])

/-- C10, witness: the sample tree is produced by `split` from the childless
root, so its force evaluation never panics; here at `theta = 1/2` for the
body stored under identity `0`. -/
theorem split_adjust_speed_no_panic_witness :
    (sampleTree.adjust_speed (1 / 2) sampleStore.length 0 sampleA).isSome = true :=
  (split_adjust_speed_no_panic sampleStore 1
    (.mk none .all ⟨⟨0, -(3 / 2)⟩, 4⟩ 0 0) sampleTree rfl split_sample).2 (1 / 2) 0 sampleA

/-! ## Direct engine: claim C5 -/

/-- The velocity contribution `G * mass * r / r.abs().powi(3)` that
`Body::adjust_speed` adds, for a body at `bpos` attracted by `mass` at
`pos`. -/
noncomputable def pairAccel (bpos pos : ℂ) (mass : ℝ) : ℂ :=
  ((G * mass : ℝ) : ℂ) * (pos - bpos) / ((Complex.abs (pos - bpos) ^ (3 : ℕ) : ℝ) : ℂ)

theorem adjust_speed_eq (b : Body) (pos : ℂ) (mass : ℝ) :
    b.adjust_speed pos mass = ⟨b.pos, b.speed + pairAccel b.pos pos mass, b.mass⟩ := rfl

theorem adjust_speed_foldl (contribs : List (ℂ × ℝ)) (b : Body) :
    contribs.foldl (fun x pm => x.adjust_speed pm.1 pm.2) b =
      ⟨b.pos, b.speed + (contribs.map fun pm => pairAccel b.pos pm.1 pm.2).sum, b.mass⟩ := by
  induction contribs generalizing b with
  | nil => cases b; simp
  | cons pm l ih =>
      rw [List.foldl_cons, ih, adjust_speed_eq]
      simp [add_assoc]

theorem lookup_updateEntry_self (s : Store) (id : ℕ) (f : Body → Body) :
    List.lookup id (updateEntry s id f) = (List.lookup id s).map f := by
  induction s with
  | nil => rfl
  | cons p s ih =>
      obtain ⟨k, v⟩ := p
      by_cases hk : k = id
      · subst hk
        simp [updateEntry, List.lookup_cons]
      · have hne : (id == k) = false := beq_false_of_ne (Ne.symm hk)
        simp only [updateEntry, List.map_cons, if_neg hk]
        rw [List.lookup_cons, List.lookup_cons]
        simp only [hne]
        exact ih

theorem lookup_updateEntry_other (s : Store) (id id' : ℕ) (f : Body → Body) (h : id' ≠ id) :
    List.lookup id' (updateEntry s id f) = List.lookup id' s := by
  induction s with
  | nil => rfl
  | cons p s ih =>
      obtain ⟨k, v⟩ := p
      by_cases hk : k = id
      · subst hk
        have hne : (id' == k) = false := beq_false_of_ne h
        simp only [updateEntry, List.map_cons] at ih ⊢
        rw [List.lookup_cons, List.lookup_cons]
        simp only [hne, if_true, eq_self_iff_true]
        exact ih
      · simp only [updateEntry, List.map_cons, if_neg hk]
        rw [List.lookup_cons, List.lookup_cons]
        cases hbeq : (id' == k) with
        | true => rfl
        | false => exact ih

theorem lookup_directStep_other (clone cur : Store) (lhs rhs x : ℕ) (h : x ≠ lhs) :
    List.lookup x (directStep clone cur lhs rhs) = List.lookup x cur := by
  unfold directStep
  by_cases hne : lhs ≠ rhs
  · rw [if_pos hne]
    rcases List.lookup rhs clone with _ | rb
    · rfl
    · exact lookup_updateEntry_other cur lhs x _ h
  · rw [if_neg hne]

theorem lookup_keys_isSome (s : Store) (r : ℕ) (h : r ∈ s.keys) :
    (List.lookup r s).isSome = true := by
  induction s with
  | nil => simp [Store.keys] at h
  | cons p s ih =>
      obtain ⟨k, v⟩ := p
      rw [List.lookup_cons]
      by_cases hk : r = k
      · simp [hk]
      · have hne : (r == k) = false := beq_false_of_ne hk
        simp only [hne]
        apply ih
        simp only [Store.keys, List.map_cons, List.mem_cons] at h
        exact h.resolve_left hk

theorem inner_fold_self (clone : Store) (lhs : ℕ) :
    ∀ (L : List ℕ) (cur : Store) (b : Body),
      (∀ r ∈ L, (List.lookup r clone).isSome = true) →
      List.lookup lhs cur = some b →
      List.lookup lhs (L.foldl (fun c r => directStep clone c lhs r) cur) =
        some ⟨b.pos,
          b.speed + ((L.filter fun r => r ≠ lhs).map fun r =>
            pairAccel b.pos (getBody clone r).pos (getBody clone r).mass).sum,
          b.mass⟩ := by
  intro L
  induction L with
  | nil =>
      intro cur b _ hb
      cases b
      simpa using hb
  | cons r L ih =>
      intro cur b hL hb
      rw [List.foldl_cons]
      by_cases hr : r = lhs
      · subst hr
        have hstep : directStep clone cur r r = cur := by
          unfold directStep
          simp
        rw [hstep, ih cur b (fun r hr => hL r (List.mem_cons_of_mem _ hr)) hb]
        simp [List.filter_cons]
      · have hsome := hL r (List.mem_cons_self _ _)
        rw [Option.isSome_iff_exists] at hsome
        obtain ⟨rb, hrb⟩ := hsome
        have hstep : directStep clone cur lhs r =
            updateEntry cur lhs fun x => x.adjust_speed rb.pos rb.mass := by
          unfold directStep
          rw [if_pos (Ne.symm hr), hrb]
        rw [hstep]
        have hb' : List.lookup lhs (updateEntry cur lhs fun x => x.adjust_speed rb.pos rb.mass) =
            some (b.adjust_speed rb.pos rb.mass) := by
          rw [lookup_updateEntry_self, hb, Option.map_some']
        rw [ih _ _ (fun r hr => hL r (List.mem_cons_of_mem _ hr)) hb', adjust_speed_eq]
        have hgb : getBody clone r = rb := by simp [getBody, hrb]
        simp only [List.filter_cons, decide_eq_true_eq, hr, if_pos (by exact hr),
          List.map_cons, List.sum_cons, hgb]
        simp [add_assoc]

theorem inner_fold_other (clone : Store) (lhs x : ℕ) (h : x ≠ lhs) :
    ∀ (L : List ℕ) (cur : Store),
      List.lookup x (L.foldl (fun c r => directStep clone c lhs r) cur) =
        List.lookup x cur := by
  intro L
  induction L with
  | nil => intro cur; rfl
  | cons r L ih =>
      intro cur
      rw [List.foldl_cons, ih, lookup_directStep_other clone cur lhs r x h]

theorem outer_fold_preserve (clone : Store) (Linner : List ℕ) (x : ℕ) :
    ∀ (L : List ℕ) (cur : Store), x ∉ L →
      List.lookup x
        (L.foldl (fun cur lhs => Linner.foldl (fun c r => directStep clone c lhs r) cur) cur) =
        List.lookup x cur := by
  intro L
  induction L with
  | nil => intro cur _; rfl
  | cons lhs L ih =>
      intro cur hx
      rw [List.foldl_cons, ih _ (fun hm => hx (List.mem_cons_of_mem _ hm)),
        inner_fold_other clone lhs x (fun he => hx (he ▸ List.mem_cons_self _ _))]

theorem outer_fold_self (clone : Store) (Linner : List ℕ)
    (hLi : ∀ r ∈ Linner, (List.lookup r clone).isSome = true) (x : ℕ) :
    ∀ (L : List ℕ) (cur : Store) (b : Body), L.Nodup → x ∈ L →
      List.lookup x cur = some b →
      List.lookup x
        (L.foldl (fun cur lhs => Linner.foldl (fun c r => directStep clone c lhs r) cur) cur) =
        some ⟨b.pos,
          b.speed + ((Linner.filter fun r => r ≠ x).map fun r =>
            pairAccel b.pos (getBody clone r).pos (getBody clone r).mass).sum,
          b.mass⟩ := by
  intro L
  induction L with
  | nil => intro cur b _ hx; simp at hx
  | cons lhs L ih =>
      intro cur b hnd hx hb
      rw [List.foldl_cons]
      rcases List.mem_cons.mp hx with rfl | hx'
      · have hnotin : x ∉ L := (List.nodup_cons.mp hnd).1
        rw [outer_fold_preserve clone Linner x L _ hnotin]
        exact inner_fold_self clone x Linner cur b hLi hb
      · have hxlhs : x ≠ lhs := by
          rintro rfl
          exact (List.nodup_cons.mp hnd).1 hx'
        rw [ih _ b (List.nodup_cons.mp hnd).2 hx'
          (by rw [inner_fold_other clone lhs x hxlhs, hb])]

theorem keys_contrib_sum (bodies : Store) (hnd : bodies.keys.Nodup) (id : ℕ) (bpos : ℂ) :
    ((bodies.keys.filter fun r => r ≠ id).map fun r =>
      pairAccel bpos (getBody bodies r).pos (getBody bodies r).mass).sum =
    ((bodies.filter fun p => p.1 ≠ id).map fun p => pairAccel bpos p.2.pos p.2.mass).sum := by
  induction bodies with
  | nil => rfl
  | cons p s ih =>
      obtain ⟨k, v⟩ := p
      have hnd' : (Store.keys s).Nodup := (List.nodup_cons.mp hnd).2
      have hk : k ∉ Store.keys s := (List.nodup_cons.mp hnd).1
      have hmap : ∀ r ∈ Store.keys s,
          getBody ((k, v) :: s) r = getBody s r := by
        intro r hr
        have : r ≠ k := fun he => hk (he ▸ hr)
        simp [getBody, List.lookup_cons, beq_false_of_ne this]
      have hgk : getBody ((k, v) :: s) k = v := by simp [getBody, List.lookup_cons]
      by_cases hki : k = id
      · subst hki
        simp only [Store.keys, List.map_cons, List.filter_cons, decide_eq_true_eq]
        rw [if_neg (by simp), if_neg (by simp)]
        rw [← ih hnd']
        apply congrArg
        apply List.map_congr_left
        intro r hr
        rw [hmap r (List.mem_of_mem_filter hr)]
      · simp only [Store.keys, List.map_cons, List.filter_cons, decide_eq_true_eq]
        rw [if_pos hki, if_pos hki, List.map_cons, List.map_cons, List.sum_cons,
          List.sum_cons, hgk]
        rw [← ih hnd']
        apply congrArg
        apply congrArg
        apply List.map_congr_left
        intro r hr
        rw [hmap r (List.mem_of_mem_filter hr)]

/-- C5, amended: `Direct::handle` takes no timestep.  For every store with
distinct keys (and pairwise-distinct positions, as the claim assumes), it
adds to each body's velocity, for every other body, exactly
`G * mass_j * (pos_j - pos_i) / |pos_j - pos_i|^3`, with positions and
masses read from the start-of-pass snapshot - i.e. the claimed update with
the `dt` factor removed (equivalently `dt = 1`). -/
theorem direct_handle_velocity (bodies : Store) (hnd : bodies.keys.Nodup)
    (_hpos : bodies.Pairwise fun p q => p.2.pos ≠ q.2.pos)
    (id : ℕ) (b : Body) (hb : List.lookup id bodies = some b) :
    List.lookup id (Direct.handle bodies) =
      some ⟨b.pos,
        b.speed + ((bodies.filter fun p => p.1 ≠ id).map fun p =>
          pairAccel b.pos p.2.pos p.2.mass).sum,
        b.mass⟩ := by
  have hmem : id ∈ bodies.keys := by
    have := lookup_mem hb
    exact List.mem_map_of_mem Prod.fst this
  unfold Direct.handle
  rw [outer_fold_self bodies bodies.keys
    (fun r hr => lookup_keys_isSome bodies r hr) id bodies.keys bodies b hnd hmem hb,
    keys_contrib_sum bodies hnd id b.pos]

theorem sampleStore_keys_nodup : sampleStore.keys.Nodup := by
  simp [sampleStore, Store.keys]

theorem sampleStore_pos_distinct : sampleStore.Pairwise fun p q => p.2.pos ≠ q.2.pos := by
  simp only [sampleStore, List.pairwise_cons, List.not_mem_nil, List.Pairwise.nil,
    and_true, List.mem_singleton]
  constructor
  · rintro q rfl
    simp only [sampleA, sampleB]
    norm_num
  · intro q hq
    simp at hq

theorem abs_three : Complex.abs 3 = 3 := by
  rw [show (3 : ℂ) = ((3 : ℝ) : ℂ) by norm_num, Complex.abs_ofReal]
  norm_num

theorem pairAccel_sample : pairAccel sampleA.pos sampleB.pos sampleB.mass = ((1 : ℝ) / 180 : ℂ) := by
  simp only [pairAccel, sampleA, sampleB, sub_zero, mul_one]
  rw [abs_three, Complex.ext_iff]
  norm_num [G]

/-- C5, counterexample: the claim scales the velocity update by an arbitrary
timestep `dt`, but `Direct::handle` takes no timestep: over `sampleStore`
the code adds exactly `pairAccel = G*m*(r)/|r|^3 = 1/180` to body 0's
velocity, which differs from the claimed `dt * pairAccel` at `dt = 2`. -/
theorem direct_dt_scaling_fails :
    List.lookup 0 (Direct.handle sampleStore) =
      some ⟨sampleA.pos, sampleA.speed + pairAccel sampleA.pos sampleB.pos sampleB.mass,
        sampleA.mass⟩ ∧
      sampleA.speed + pairAccel sampleA.pos sampleB.pos sampleB.mass ≠
        sampleA.speed + (2 : ℂ) * pairAccel sampleA.pos sampleB.pos sampleB.mass := by
  constructor
  · have h := outer_fold_self sampleStore sampleStore.keys
      (fun r hr => lookup_keys_isSome sampleStore r hr) 0 sampleStore.keys sampleStore sampleA
      sampleStore_keys_nodup (by simp [sampleStore, Store.keys])
      (by simp [sampleStore, List.lookup])
    unfold Direct.handle
    rw [h]
    have hfilter : (Store.keys sampleStore).filter (fun r => r ≠ 0) = [1] := by
      simp [sampleStore, Store.keys, List.filter]
    rw [hfilter]
    have hgb : getBody sampleStore 1 = sampleB := by simp [getBody, sampleStore, List.lookup]
    simp [hgb]
  · rw [pairAccel_sample]
    intro h
    have := add_left_cancel h
    rw [Complex.ext_iff] at this
    norm_num at this

/-- C5, witness for the amended theorem, at `sampleStore` and body 0. -/
theorem direct_handle_velocity_witness :
    List.lookup 0 (Direct.handle sampleStore) =
      some ⟨sampleA.pos,
        sampleA.speed + ((sampleStore.filter fun p => p.1 ≠ 0).map fun p =>
          pairAccel sampleA.pos p.2.pos p.2.mass).sum,
        sampleA.mass⟩ :=
  direct_handle_velocity sampleStore sampleStore_keys_nodup sampleStore_pos_distinct 0 sampleA
    (by simp [sampleStore, List.lookup])

/-! ## Collision / merge engine: chain invariants (claims C1, C2, C9) -/

theorem get_closest_subset (b : Body) (id : ℕ) (bodies : Store) :
    ∀ k ∈ get_closest b id bodies, k ∈ bodies.keys ∧ k ≠ id := by
  intro k hk
  unfold get_closest at hk
  rw [List.mem_map] at hk
  obtain ⟨p, hp, rfl⟩ := hk
  rw [List.mem_filter, decide_eq_true_eq] at hp
  exact ⟨List.mem_map_of_mem Prod.fst hp.1, hp.2.1⟩

theorem collect_chain_zero (b : Body) (id : ℕ) (bodies : Store) (vis : Finset ℕ) :
    collect_chain 0 b id bodies vis = ([id], insert id vis) := rfl

theorem insert_eq_union_singleton (id : ℕ) (vis : Finset ℕ) :
    insert id vis = vis ∪ ({id} : Finset ℕ) := by
  rw [Finset.insert_eq, Finset.union_comm]

theorem collect_chain_succ (fuel : ℕ) (b : Body) (id : ℕ) (bodies : Store) (vis : Finset ℕ) :
    collect_chain (fuel + 1) b id bodies vis =
      (get_closest b id bodies).foldl (ccStep fuel bodies) ([id], insert id vis) := rfl

/-- The structural invariant of a `collect_chain` result relative to the
incoming visited set: the new visited set is the old one plus exactly the
returned chain; the chain has no duplicates, avoids the old visited set,
contains the starting identity, and stays inside the store's keys. -/
def ccInv (bodies : Store) (vis : Finset ℕ) (id : ℕ) (r : List ℕ × Finset ℕ) : Prop :=
  r.2 = vis ∪ r.1.toFinset ∧ r.1.Nodup ∧ (∀ x ∈ r.1, x ∉ vis) ∧ id ∈ r.1 ∧
    (∀ x ∈ r.1, x = id ∨ x ∈ bodies.keys)

theorem ccStep_fold_inv (fuel : ℕ) (bodies : Store)
    (IH : ∀ (b : Body) (id : ℕ) (vis : Finset ℕ), id ∉ vis →
      ccInv bodies vis id (collect_chain fuel b id bodies vis)) :
    ∀ (L : List ℕ) (vis : Finset ℕ) (id : ℕ) (acc : List ℕ × Finset ℕ),
      ccInv bodies vis id acc →
      ccInv bodies vis id (L.foldl (ccStep fuel bodies) acc) := by
  intro L
  induction L with
  | nil => intro vis id acc h; exact h
  | cons n L ihL =>
      intro vis id acc h
      rw [List.foldl_cons]
      apply ihL
      unfold ccStep
      by_cases hn : n ∈ acc.2
      · rw [if_pos hn]; exact h
      · rw [if_neg hn]
        rcases hlk : List.lookup n bodies with _ | nb
        · exact h
        · obtain ⟨h1, h2, h3, h4, h5⟩ := h
          obtain ⟨g1, g2, g3, g4, g5⟩ := IH nb n acc.2 hn
          have hsub : ∀ x ∈ (collect_chain fuel nb n bodies acc.2).1, x ∉ acc.2 := g3
          refine ⟨?_, ?_, ?_, ?_, ?_⟩
          · show (collect_chain fuel nb n bodies acc.2).2 = vis ∪ _
            rw [g1, h1, List.toFinset_append]
            rw [Finset.union_assoc]
          · show (acc.1 ++ (collect_chain fuel nb n bodies acc.2).1).Nodup
            rw [List.nodup_append]
            refine ⟨h2, g2, fun x hx hx' => ?_⟩
            exact hsub x hx' (by rw [h1]; exact Finset.mem_union_right _ (List.mem_toFinset.mpr hx))
          · intro x hx
            rcases List.mem_append.mp hx with hx | hx
            · exact h3 x hx
            · intro hv
              exact hsub x hx (by rw [h1]; exact Finset.mem_union_left _ hv)
          · exact List.mem_append.mpr (Or.inl h4)
          · intro x hx
            rcases List.mem_append.mp hx with hx | hx
            · exact h5 x hx
            · rcases g5 x hx with rfl | hk
              · right
                exact List.mem_map_of_mem Prod.fst (lookup_mem hlk)
              · right; exact hk

theorem collect_chain_inv :
    ∀ (fuel : ℕ) (b : Body) (id : ℕ) (bodies : Store) (vis : Finset ℕ), id ∉ vis →
      ccInv bodies vis id (collect_chain fuel b id bodies vis) := by
  intro fuel
  induction fuel with
  | zero =>
      intro b id bodies vis hid
      rw [collect_chain_zero]
      refine ⟨?_, by simp, by simpa using hid, by simp, by simp⟩
      show insert id vis = vis ∪ [id].toFinset
      rw [insert_eq_union_singleton]
      simp
  | succ fuel ih =>
      intro b id bodies vis hid
      rw [collect_chain_succ]
      apply ccStep_fold_inv fuel bodies (fun b id vis => ih b id bodies vis)
      refine ⟨?_, by simp, by simpa using hid, by simp, by simp⟩
      show insert id vis = vis ∪ [id].toFinset
      rw [insert_eq_union_singleton]
      simp

/-- Union of the chains collected so far. -/
def chainsUnion (cs : List (List ℕ)) : Finset ℕ :=
  (cs.map List.toFinset).foldr (fun a b => a ∪ b) ∅

theorem chainsUnion_cons (c : List ℕ) (cs : List (List ℕ)) :
    chainsUnion (c :: cs) = c.toFinset ∪ chainsUnion cs := rfl

theorem chainsUnion_append_singleton (cs : List (List ℕ)) (c : List ℕ) :
    chainsUnion (cs ++ [c]) = chainsUnion cs ∪ c.toFinset := by
  induction cs with
  | nil =>
      show c.toFinset ∪ ∅ = ∅ ∪ c.toFinset
      rw [Finset.union_empty, Finset.empty_union]
  | cons d cs ih =>
      rw [List.cons_append, chainsUnion_cons, chainsUnion_cons, ih, Finset.union_assoc]

theorem mem_chainsUnion (x : ℕ) : ∀ (cs : List (List ℕ)),
    x ∈ chainsUnion cs ↔ ∃ c ∈ cs, x ∈ c := by
  intro cs
  induction cs with
  | nil => simp [chainsUnion]
  | cons c cs ih =>
      rw [chainsUnion_cons, Finset.mem_union, ih]
      simp

/-- Invariant of the outer chain-collecting scan: the visited set is exactly
the union of the chains, the chains are pairwise disjoint, duplicate-free,
and drawn from the store's keys. -/
def cvInv (bodies : Store) (acc : List (List ℕ) × Finset ℕ) : Prop :=
  acc.2 = chainsUnion acc.1 ∧
    acc.1.Pairwise (fun c d => ∀ x ∈ c, x ∉ d) ∧
    (∀ c ∈ acc.1, c.Nodup) ∧
    (∀ c ∈ acc.1, ∀ x ∈ c, x ∈ bodies.keys)

theorem cvStep_inv (bodies : Store) (p : ℕ × Body) (hp : p.1 ∈ bodies.keys)
    (acc : List (List ℕ) × Finset ℕ) (h : cvInv bodies acc) :
    cvInv bodies (cvStep bodies acc p) := by
  unfold cvStep
  by_cases hin : p.1 ∈ acc.2
  · rw [if_pos hin]; exact h
  · rw [if_neg hin]
    obtain ⟨h1, h2, h3, h4⟩ := h
    obtain ⟨g1, g2, g3, g4, g5⟩ := collect_chain_inv bodies.length p.2 p.1 bodies acc.2 hin
    refine ⟨?_, ?_, ?_, ?_⟩
    · show (collect_chain bodies.length p.2 p.1 bodies acc.2).2 = chainsUnion _
      rw [g1, chainsUnion_append_singleton, h1]
    · show List.Pairwise _ (acc.1 ++ [_])
      rw [List.pairwise_append]
      refine ⟨h2, by simp, fun c hc d hd => ?_⟩
      rw [List.mem_singleton] at hd
      subst hd
      intro x hx hxd
      exact g3 x hxd (by rw [h1, mem_chainsUnion]; exact ⟨c, hc, hx⟩)
    · intro c hc
      rcases List.mem_append.mp hc with hc | hc
      · exact h3 c hc
      · rw [List.mem_singleton] at hc
        subst hc
        exact g2
    · intro c hc x hx
      rcases List.mem_append.mp hc with hc | hc
      · exact h4 c hc x hx
      · rw [List.mem_singleton] at hc
        subst hc
        rcases g5 x hx with rfl | hk
        · exact hp
        · exact hk

theorem cv_fold_inv (bodies : Store) :
    ∀ (L : List (ℕ × Body)) (acc : List (List ℕ) × Finset ℕ),
      (∀ p ∈ L, p.1 ∈ bodies.keys) → cvInv bodies acc →
      cvInv bodies (L.foldl (cvStep bodies) acc) := by
  intro L
  induction L with
  | nil => intro acc _ h; exact h
  | cons p L ih =>
      intro acc hL h
      rw [List.foldl_cons]
      exact ih _ (fun q hq => hL q (List.mem_cons_of_mem _ hq))
        (cvStep_inv bodies p (hL p (List.mem_cons_self _ _)) acc h)

theorem cvStep_vis_mono (bodies : Store) (acc : List (List ℕ) × Finset ℕ) (p : ℕ × Body) :
    acc.2 ⊆ (cvStep bodies acc p).2 := by
  unfold cvStep
  by_cases hin : p.1 ∈ acc.2
  · rw [if_pos hin]
  · rw [if_neg hin]
    obtain ⟨g1, _, _, _, _⟩ := collect_chain_inv bodies.length p.2 p.1 bodies acc.2 hin
    show acc.2 ⊆ (collect_chain bodies.length p.2 p.1 bodies acc.2).2
    rw [g1]
    exact Finset.subset_union_left

theorem cv_fold_vis_mono (bodies : Store) :
    ∀ (L : List (ℕ × Body)) (acc : List (List ℕ) × Finset ℕ),
      acc.2 ⊆ (L.foldl (cvStep bodies) acc).2 := by
  intro L
  induction L with
  | nil => intro acc; exact Finset.Subset.refl _
  | cons p L ih =>
      intro acc
      rw [List.foldl_cons]
      exact (cvStep_vis_mono bodies acc p).trans (ih _)

theorem cv_fold_covers (bodies : Store) :
    ∀ (L : List (ℕ × Body)) (acc : List (List ℕ) × Finset ℕ),
      ∀ p ∈ L, p.1 ∈ (L.foldl (cvStep bodies) acc).2 := by
  intro L
  induction L with
  | nil => intro acc p hp; simp at hp
  | cons q L ih =>
      intro acc p hp
      rw [List.foldl_cons]
      rcases List.mem_cons.mp hp with rfl | hp'
      · apply cv_fold_vis_mono bodies L
        unfold cvStep
        by_cases hin : p.1 ∈ acc.2
        · rw [if_pos hin]; exact hin
        · rw [if_neg hin]
          obtain ⟨g1, _, _, g4, _⟩ := collect_chain_inv bodies.length p.2 p.1 bodies acc.2 hin
          show p.1 ∈ (collect_chain bodies.length p.2 p.1 bodies acc.2).2
          rw [g1]
          exact Finset.mem_union_right _ (List.mem_toFinset.mpr g4)
      · exact ih _ p hp'

theorem chainsAndVisited_inv (bodies : Store) : cvInv bodies (chainsAndVisited bodies) :=
  cv_fold_inv bodies bodies ([], ∅) (fun p hp => List.mem_map_of_mem Prod.fst hp)
    ⟨rfl, List.Pairwise.nil, by simp, by simp⟩

theorem chainsAndVisited_covers (bodies : Store) :
    ∀ p ∈ bodies, p.1 ∈ (chainsAndVisited bodies).2 :=
  cv_fold_covers bodies bodies ([], ∅)

theorem visited_eq_keys (bodies : Store) :
    (chainsAndVisited bodies).2 = bodies.keys.toFinset := by
  obtain ⟨h1, _, _, h4⟩ := chainsAndVisited_inv bodies
  apply Finset.Subset.antisymm
  · intro x hx
    rw [h1, mem_chainsUnion] at hx
    obtain ⟨c, hc, hxc⟩ := hx
    exact List.mem_toFinset.mpr (h4 c hc x hxc)
  · intro x hx
    rw [List.mem_toFinset] at hx
    obtain ⟨p, hp, rfl⟩ := List.mem_map.mp hx
    exact chainsAndVisited_covers bodies p hp

theorem list_chains_sum (f : ℕ → ℝ) :
    ∀ (cs : List (List ℕ)), cs.Pairwise (fun c d => ∀ x ∈ c, x ∉ d) →
      (∀ c ∈ cs, c.Nodup) →
      (cs.map fun c => (c.map f).sum).sum = (chainsUnion cs).sum f := by
  intro cs
  induction cs with
  | nil => simp [chainsUnion]
  | cons c cs ih =>
      intro hpw hnd
      rw [List.map_cons, List.sum_cons, chainsUnion_cons,
        Finset.sum_union ?disj, ih (List.Pairwise.sublist (List.sublist_cons_self c cs) hpw)
          (fun d hd => hnd d (List.mem_cons_of_mem _ hd))]
      · congr 1
        rw [List.sum_toFinset f (hnd c (List.mem_cons_self _ _))]
      case disj =>
        rw [Finset.disjoint_left]
        intro x hx hx'
        rw [List.mem_toFinset] at hx
        rw [mem_chainsUnion] at hx'
        obtain ⟨d, hd, hxd⟩ := hx'
        exact (List.pairwise_cons.mp hpw).1 d hd x hx hxd

theorem keys_toFinset_sum_mass (bodies : Store) (hnd : bodies.keys.Nodup) :
    bodies.keys.toFinset.sum (fun id => (getBody bodies id).mass) = massSum bodies := by
  induction bodies with
  | nil => simp [massSum, Store.keys]
  | cons p s ih =>
      obtain ⟨k, v⟩ := p
      have hk : k ∉ Store.keys s := (List.nodup_cons.mp hnd).1
      have hnd' : (Store.keys s).Nodup := (List.nodup_cons.mp hnd).2
      have hkeys : Store.keys ((k, v) :: s) = k :: Store.keys s := rfl
      rw [hkeys, List.toFinset_cons, Finset.sum_insert (by simpa using hk)]
      have hgk : getBody ((k, v) :: s) k = v := by simp [getBody, List.lookup_cons]
      have hcongr : ∀ id ∈ (Store.keys s).toFinset,
          (getBody ((k, v) :: s) id).mass = (getBody s id).mass := by
        intro id hid
        rw [List.mem_toFinset] at hid
        have : id ≠ k := fun he => hk (he ▸ hid)
        simp [getBody, List.lookup_cons, beq_false_of_ne this]
      rw [Finset.sum_congr rfl hcongr, ih hnd', hgk]
      simp [massSum]

theorem advance_keys (bodies : Store) : (advance bodies).keys = bodies.keys := by
  simp [advance, Store.keys]

theorem advance_massSum (bodies : Store) : massSum (advance bodies) = massSum bodies := by
  simp [advance, massSum, Function.comp_def]

/-- C2: `Body::update_bodies` conserves the total mass exactly (in real
arithmetic): the chains partition the store's identities and each merged
product carries the sum of its chain's masses. -/
theorem update_bodies_mass_conserved (bodies : Store) (hnd : bodies.keys.Nodup) :
    massSum (update_bodies bodies) = massSum bodies := by
  unfold update_bodies
  obtain ⟨h1, h2, h3, _⟩ := chainsAndVisited_inv (advance bodies)
  have hrem : (advance bodies).filter (fun p => p.1 ∉ (chainsAndVisited (advance bodies)).2) = [] := by
    rw [List.filter_eq_nil_iff]
    intro p hp
    simp only [decide_eq_true_eq, Decidable.not_not]
    exact chainsAndVisited_covers (advance bodies) p hp
  rw [hrem, List.nil_append]
  have henum : massSum ((chainsAndVisited (advance bodies)).1.enum.map fun kc =>
      (freshBase (advance bodies) + kc.1, mergeChain (advance bodies) kc.2)) =
      ((chainsAndVisited (advance bodies)).1.map fun c =>
        (c.map fun id => (getBody (advance bodies) id).mass).sum).sum := by
    unfold massSum
    rw [List.map_map]
    have : ((chainsAndVisited (advance bodies)).1.enum.map
        ((fun p : ℕ × Body => p.2.mass) ∘ fun kc =>
          (freshBase (advance bodies) + kc.1, mergeChain (advance bodies) kc.2))) =
        ((chainsAndVisited (advance bodies)).1.enum.map
          ((fun c => (c.map fun id => (getBody (advance bodies) id).mass).sum) ∘ Prod.snd)) := by
      apply List.map_congr_left
      intro kc _
      rfl
    rw [this, ← List.map_map, List.enum_map_snd]
  rw [henum, list_chains_sum _ _ h2 h3, ← h1, visited_eq_keys,
    keys_toFinset_sum_mass (advance bodies) (by rw [advance_keys]; exact hnd),
    advance_massSum]

/-- C2, witness: the total mass of the two-body sample store is conserved
across one `update_bodies` call. -/
theorem update_bodies_mass_conserved_witness :
    massSum (update_bodies sampleStore) = massSum sampleStore :=
  update_bodies_mass_conserved sampleStore sampleStore_keys_nodup

/-! ## Identity lifecycle: claim C9 -/

theorem le_foldr_max : ∀ (l : List ℕ) (x : ℕ), x ∈ l → x ≤ l.foldr max 0 := by
  intro l
  induction l with
  | nil => intro x hx; simp at hx
  | cons a l ih =>
      intro x hx
      rw [List.foldr_cons]
      rcases List.mem_cons.mp hx with rfl | hx'
      · exact le_max_left _ _
      · exact (ih x hx').trans (le_max_right _ _)

theorem lookup_none_of_forall_ne (id : ℕ) :
    ∀ (l : Store), (∀ p ∈ l, p.1 ≠ id) → List.lookup id l = none := by
  intro l
  induction l with
  | nil => intro _; rfl
  | cons p l ih =>
      intro h
      obtain ⟨k, v⟩ := p
      rw [List.lookup_cons]
      have : (id == k) = false := beq_false_of_ne fun he =>
        h (k, v) (List.mem_cons_self _ _) (he ▸ rfl)
      rw [this]
      exact ih fun q hq => h q (List.mem_cons_of_mem _ hq)

/-- C9, amended: `Body::update_bodies` never preserves an identity.  Every
identity present before the call is removed: the scan visits every body
(bodies in singleton chains included), the removal loop erases all visited
identities, and the merged products - one per chain, even for a body that
merged with nothing - are inserted under fresh identities above every
existing key. -/
theorem update_bodies_discards_all_identities (bodies : Store) (id : ℕ)
    (hid : id ∈ bodies.keys) : List.lookup id (update_bodies bodies) = none := by
  unfold update_bodies
  have hrem : (advance bodies).filter
      (fun p => p.1 ∉ (chainsAndVisited (advance bodies)).2) = [] := by
    rw [List.filter_eq_nil_iff]
    intro p hp
    simp only [decide_eq_true_eq, Decidable.not_not]
    exact chainsAndVisited_covers (advance bodies) p hp
  rw [hrem, List.nil_append]
  apply lookup_none_of_forall_ne
  intro p hp
  rw [List.mem_map] at hp
  obtain ⟨kc, _, rfl⟩ := hp
  have hle : id ≤ (advance bodies).keys.foldr max 0 :=
    le_foldr_max _ id (by rw [advance_keys]; exact hid)
  unfold freshBase
  omega

/-- A singleton store holding one body under identity 5. -/
noncomputable def soloStore : Store := [(5, Body.mk 0 0 1)]

theorem advance_solo : advance soloStore = soloStore := by
  simp [advance, soloStore]

theorem chainsAndVisited_solo : chainsAndVisited soloStore = ([[5]], {5}) := by
  unfold chainsAndVisited soloStore
  rw [List.foldl_cons, List.foldl_nil]
  unfold cvStep
  rw [if_neg (by simp)]
  have hgc : get_closest (Body.mk 0 0 1) 5 [(5, Body.mk 0 0 1)] = [] := by
    unfold get_closest
    rw [List.filter_cons]
    simp
  show (_, (collect_chain 1 (Body.mk 0 0 1) 5 [(5, Body.mk 0 0 1)] ∅).2) = _
  rw [collect_chain_succ, hgc, List.foldl_nil]
  rfl

/-- C9, counterexample: a store holding a single body under identity 5 -
a body that merges with nothing - comes out of `update_bodies` with key 5
gone: the body survives with identical state but under the fresh identity
6. -/
theorem identity_not_preserved :
    List.lookup 5 (update_bodies soloStore) = none ∧
      update_bodies soloStore = [(6, Body.mk 0 0 1)] := by
  have heval : update_bodies soloStore = [(6, Body.mk 0 0 1)] := by
    unfold update_bodies
    rw [advance_solo, chainsAndVisited_solo]
    have hrem : soloStore.filter (fun p => p.1 ∉ ({5} : Finset ℕ)) = [] := by
      simp [soloStore]
    rw [hrem, List.nil_append]
    have hfresh : freshBase soloStore = 6 := by
      simp [freshBase, soloStore, Store.keys]
    rw [hfresh]
    have hmc : mergeChain soloStore [5] = Body.mk 0 0 1 := by
      unfold mergeChain soloStore
      simp [getBody, List.lookup]
    simp [hmc]
  exact ⟨by rw [heval]; rfl, heval⟩

/-- C9, witness for the amended theorem: body 0 of the sample store loses
its key. -/
theorem update_bodies_discards_witness :
    List.lookup 0 (update_bodies sampleStore) = none :=
  update_bodies_discards_all_identities sampleStore 0 (by simp [sampleStore, Store.keys])

/-! ## Chain separation: claim C1 -/

theorem lookup_of_mem_nodup :
    ∀ (s : Store), s.keys.Nodup → ∀ p ∈ s, List.lookup p.1 s = some p.2 := by
  intro s
  induction s with
  | nil => intro _ p hp; simp at hp
  | cons q s ih =>
      intro hnd p hp
      obtain ⟨k, v⟩ := q
      rcases List.mem_cons.mp hp with rfl | hp'
      · simp [List.lookup_cons]
      · have hk : k ∉ Store.keys s := (List.nodup_cons.mp hnd).1
        have hne : p.1 ≠ k := fun he => hk (he ▸ List.mem_map_of_mem Prod.fst hp')
        rw [List.lookup_cons]
        rw [beq_false_of_ne hne]
        exact ih (List.nodup_cons.mp hnd).2 p hp'

theorem ccStep_vis_mono (fuel : ℕ) (bodies : Store) (acc : List ℕ × Finset ℕ) (n : ℕ) :
    acc.2 ⊆ (ccStep fuel bodies acc n).2 := by
  unfold ccStep
  by_cases hn : n ∈ acc.2
  · rw [if_pos hn]
  · rw [if_neg hn]
    rcases hlk : List.lookup n bodies with _ | nb
    · exact Finset.Subset.refl _
    · obtain ⟨g1, _, _, _, _⟩ := collect_chain_inv fuel nb n bodies acc.2 hn
      show acc.2 ⊆ (collect_chain fuel nb n bodies acc.2).2
      rw [g1]
      exact Finset.subset_union_left

theorem ccStep_fold_vis_mono (fuel : ℕ) (bodies : Store) :
    ∀ (L : List ℕ) (acc : List ℕ × Finset ℕ),
      acc.2 ⊆ (L.foldl (ccStep fuel bodies) acc).2 := by
  intro L
  induction L with
  | nil => intro acc; exact Finset.Subset.refl _
  | cons n L ih =>
      intro acc
      rw [List.foldl_cons]
      exact (ccStep_vis_mono fuel bodies acc n).trans (ih _)

theorem ccStep_fold_mem (fuel : ℕ) (bodies : Store) :
    ∀ (L : List ℕ) (acc : List ℕ × Finset ℕ),
      ∀ x ∈ L, x ∈ bodies.keys → x ∈ (L.foldl (ccStep fuel bodies) acc).2 := by
  intro L
  induction L with
  | nil => intro acc x hx; simp at hx
  | cons n L ih =>
      intro acc x hx hxk
      rw [List.foldl_cons]
      rcases List.mem_cons.mp hx with rfl | hx'
      · apply ccStep_fold_vis_mono fuel bodies L
        unfold ccStep
        by_cases hn : x ∈ acc.2
        · rw [if_pos hn]; exact hn
        · rw [if_neg hn]
          have hsome := lookup_keys_isSome bodies x hxk
          rw [Option.isSome_iff_exists] at hsome
          obtain ⟨nb, hnb⟩ := hsome
          rw [hnb]
          obtain ⟨g1, _, _, g4, _⟩ := collect_chain_inv fuel nb x bodies acc.2 hn
          show x ∈ (collect_chain fuel nb x bodies acc.2).2
          rw [g1]
          exact Finset.mem_union_right _ (List.mem_toFinset.mpr g4)
      · exact ih _ x hx' hxk

/-- The closure property of one `collect_chain` call: every neighbor of
every chain member ends up visited (given enough fuel, which the callers'
`bodies.len()` always is). -/
theorem collect_chain_closure :
    ∀ (fuel : ℕ) (bodies : Store) (b : Body) (id : ℕ) (vis : Finset ℕ),
      (bodies.keys.toFinset \ vis).card ≤ fuel →
      id ∈ bodies.keys → id ∉ vis → List.lookup id bodies = some b →
      ∀ j ∈ (collect_chain fuel b id bodies vis).1,
        ∀ k ∈ get_closest (getBody bodies j) j bodies,
          k ∈ (collect_chain fuel b id bodies vis).2 := by
  intro fuel
  induction fuel with
  | zero =>
      intro bodies b id vis hcard hid hvis _
      exfalso
      have : id ∈ bodies.keys.toFinset \ vis :=
        Finset.mem_sdiff.mpr ⟨List.mem_toFinset.mpr hid, hvis⟩
      have := Finset.card_pos.mpr ⟨id, this⟩
      omega
  | succ fuel ih =>
      intro bodies b id vis hcard hid hvis hb
      rw [collect_chain_succ]
      have hQ : ∀ (L : List ℕ) (acc : List ℕ × Finset ℕ),
          ccInv bodies vis id acc →
          (∀ j ∈ acc.1, j ≠ id →
            ∀ k ∈ get_closest (getBody bodies j) j bodies, k ∈ acc.2) →
          ccInv bodies vis id (L.foldl (ccStep fuel bodies) acc) ∧
            (∀ j ∈ (L.foldl (ccStep fuel bodies) acc).1, j ≠ id →
              ∀ k ∈ get_closest (getBody bodies j) j bodies,
                k ∈ (L.foldl (ccStep fuel bodies) acc).2) := by
        intro L
        induction L with
        | nil => intro acc hi hc; exact ⟨hi, hc⟩
        | cons n L ihL =>
            intro acc hi hc
            rw [List.foldl_cons]
            have histep : ccInv bodies vis id (ccStep fuel bodies acc n) := by
              have := ccStep_fold_inv fuel bodies
                (fun b' id' vis' h' => collect_chain_inv fuel b' id' bodies vis' h')
                [n] vis id acc hi
              simpa using this
            apply ihL _ histep
            unfold ccStep
            by_cases hn : n ∈ acc.2
            · rw [if_pos hn]; exact hc
            · rw [if_neg hn]
              rcases hlk : List.lookup n bodies with _ | nb
              · exact hc
              · obtain ⟨g1, _, g3, g4, _⟩ := collect_chain_inv fuel nb n bodies acc.2 hn
                have hmono : acc.2 ⊆ (collect_chain fuel nb n bodies acc.2).2 := by
                  rw [g1]; exact Finset.subset_union_left
                have hcard' : (bodies.keys.toFinset \ acc.2).card ≤ fuel := by
                  obtain ⟨i1, _, _, i4, _⟩ := hi
                  have hsub : insert id vis ⊆ acc.2 := by
                    rw [i1]
                    intro x hx
                    rcases Finset.mem_insert.mp hx with rfl | hx'
                    · exact Finset.mem_union_right _ (List.mem_toFinset.mpr i4)
                    · exact Finset.mem_union_left _ hx'
                  have h1 : bodies.keys.toFinset \ acc.2 ⊆
                      bodies.keys.toFinset \ insert id vis :=
                    Finset.sdiff_subset_sdiff (Finset.Subset.refl _) hsub
                  have h2 : bodies.keys.toFinset \ insert id vis =
                      (bodies.keys.toFinset \ vis).erase id := by
                    rw [Finset.sdiff_insert]
                  have h3 : id ∈ bodies.keys.toFinset \ vis :=
                    Finset.mem_sdiff.mpr ⟨List.mem_toFinset.mpr hid, hvis⟩
                  have h4 := Finset.card_le_card h1
                  rw [h2, Finset.card_erase_of_mem h3] at h4
                  omega
                have hclose := ih bodies nb n acc.2 hcard'
                  (List.mem_map_of_mem Prod.fst (lookup_mem hlk)) hn hlk
                intro j hj hjid k hk
                rcases List.mem_append.mp hj with hj' | hj'
                · exact hmono (hc j hj' hjid k hk)
                · exact hclose j hj' k hk
      obtain ⟨hi, hcl⟩ := hQ (get_closest b id bodies) ([id], insert id vis)
        (by
          refine ⟨?_, by simp, by simpa using hvis, by simp, by simp⟩
          show insert id vis = vis ∪ [id].toFinset
          rw [insert_eq_union_singleton]
          simp)
        (by
          intro j hj hjid
          rw [List.mem_singleton] at hj
          exact absurd hj hjid)
      intro j hj k hk
      by_cases hjid : j = id
      · subst hjid
        have hgb : getBody bodies j = b := by simp [getBody, hb]
        rw [hgb] at hk
        exact ccStep_fold_mem fuel bodies _ _ k hk (get_closest_subset b j bodies k hk).1
      · exact hcl j hj hjid k hk

/-- Separation invariant of the outer scan: every neighbor of every member
of an already-collected chain is visited, and no member of a later chain is
a neighbor of a member of an earlier chain. -/
def sepInv (bodies : Store) (acc : List (List ℕ) × Finset ℕ) : Prop :=
  (∀ c ∈ acc.1, ∀ j ∈ c, ∀ k ∈ get_closest (getBody bodies j) j bodies, k ∈ acc.2) ∧
    acc.1.Pairwise fun c d => ∀ j ∈ c, ∀ k ∈ d, k ∉ get_closest (getBody bodies j) j bodies

theorem cvStep_sep (bodies : Store) (hnd : bodies.keys.Nodup) (p : ℕ × Body)
    (hp : p ∈ bodies) (acc : List (List ℕ) × Finset ℕ) (h : sepInv bodies acc) :
    sepInv bodies (cvStep bodies acc p) := by
  obtain ⟨hS, hT⟩ := h
  unfold cvStep
  by_cases hin : p.1 ∈ acc.2
  · rw [if_pos hin]; exact ⟨hS, hT⟩
  · rw [if_neg hin]
    obtain ⟨g1, _, g3, _, _⟩ := collect_chain_inv bodies.length p.2 p.1 bodies acc.2 hin
    have hmono : acc.2 ⊆ (collect_chain bodies.length p.2 p.1 bodies acc.2).2 := by
      rw [g1]; exact Finset.subset_union_left
    have hclose := collect_chain_closure bodies.length bodies p.2 p.1 acc.2
      (by
        have h1 : bodies.keys.toFinset \ acc.2 ⊆ bodies.keys.toFinset := Finset.sdiff_subset
        have h2 := Finset.card_le_card h1
        have h3 : bodies.keys.toFinset.card ≤ bodies.keys.length := List.toFinset_card_le _
        have h4 : bodies.keys.length = bodies.length := List.length_map _ _
        omega)
      (List.mem_map_of_mem Prod.fst hp) hin (lookup_of_mem_nodup bodies hnd p hp)
    constructor
    · intro c hc j hj k hk
      rcases List.mem_append.mp hc with hc' | hc'
      · exact hmono (hS c hc' j hj k hk)
      · rw [List.mem_singleton] at hc'
        subst hc'
        exact hclose j hj k hk
    · show List.Pairwise _ (acc.1 ++ [_])
      rw [List.pairwise_append]
      refine ⟨hT, by simp, fun c hc d hd => ?_⟩
      rw [List.mem_singleton] at hd
      subst hd
      intro j hj k hk hkc
      exact g3 k hk (hS c hc j hj k hkc)

theorem cv_fold_sep (bodies : Store) (hnd : bodies.keys.Nodup) :
    ∀ (L : List (ℕ × Body)) (acc : List (List ℕ) × Finset ℕ),
      (∀ p ∈ L, p ∈ bodies) → sepInv bodies acc →
      sepInv bodies (L.foldl (cvStep bodies) acc) := by
  intro L
  induction L with
  | nil => intro acc _ h; exact h
  | cons p L ih =>
      intro acc hL h
      rw [List.foldl_cons]
      exact ih _ (fun q hq => hL q (List.mem_cons_of_mem _ hq))
        (cvStep_sep bodies hnd p (hL p (List.mem_cons_self _ _)) acc h)

theorem chainsAndVisited_sep (bodies : Store) (hnd : bodies.keys.Nodup) :
    sepInv bodies (chainsAndVisited bodies) :=
  cv_fold_sep bodies hnd bodies ([], ∅) (fun _ hp => hp)
    ⟨by simp, List.Pairwise.nil⟩

theorem mem_get_closest_of (bodies : Store) (hnd : bodies.keys.Nodup) (b : Body) (j k : ℕ)
    (hk : k ∈ bodies.keys) (hkj : k ≠ j)
    (hd : Complex.abs ((getBody bodies k).pos - b.pos) ≤
      b.get_radius + (getBody bodies k).get_radius) :
    k ∈ get_closest b j bodies := by
  obtain ⟨p, hp, rfl⟩ := List.mem_map.mp hk
  have hgb : getBody bodies p.1 = p.2 := by
    rw [getBody, lookup_of_mem_nodup bodies hnd p hp]
    rfl
  unfold get_closest
  rw [hgb] at hd
  exact List.mem_map_of_mem Prod.fst
    (List.mem_filter.mpr ⟨hp, decide_eq_true_eq.mpr ⟨hkj, hd⟩⟩)

/-- C1, amended: after the position advance, the merge pass groups the
bodies into overlap-connected chains and any two bodies in distinct chains
are strictly separated: their distance exceeds the sum of their radii.  So
the merge pass does resolve every overlap among the pre-merge bodies - but
the merged products themselves are NOT re-checked, and a merged product can
overlap another remaining body (see the counterexample), so the claimed
post-call no-overlap property fails. -/
theorem update_chains_separated (bodies : Store) (hnd : bodies.keys.Nodup) :
    (chainsAndVisited (advance bodies)).1.Pairwise fun c d =>
      ∀ j ∈ c, ∀ k ∈ d, j ≠ k →
        (getBody (advance bodies) j).get_radius + (getBody (advance bodies) k).get_radius <
          Complex.abs ((getBody (advance bodies) k).pos - (getBody (advance bodies) j).pos) := by
  have hndA : (advance bodies).keys.Nodup := by rw [advance_keys]; exact hnd
  have hT := (chainsAndVisited_sep (advance bodies) hndA).2
  obtain ⟨_, _, _, h4⟩ := chainsAndVisited_inv (advance bodies)
  refine List.Pairwise.imp_of_mem ?_ hT
  intro c d hc hd hcd j hj k hk hjk
  by_contra hle
  push_neg at hle
  exact hcd j hj k hk
    (mem_get_closest_of (advance bodies) hndA (getBody (advance bodies) j) j k
      (h4 d hd k hk) (Ne.symm hjk) hle)

/-! ## The three-body overlap counterexample (claim C1) -/

noncomputable section

/-- A unit-mass body at `(-1, 0)`, at rest. -/
def bodyL : Body := ⟨⟨-1, 0⟩, 0, 1⟩

/-- A unit-mass body at `(1, 0)`, at rest; it touches `bodyL`. -/
def bodyR : Body := ⟨⟨1, 0⟩, 0, 1⟩

/-- A light body (mass `1/1000`, radius `1/10`) at `(0, 1)`, at rest; it
touches neither `bodyL` nor `bodyR`. -/
def bodyT : Body := ⟨⟨0, 1⟩, 0, 1 / 1000⟩

/-- The three-body store: two touching unit masses and a separate light
body just above the point where their merge product will appear. -/
def threeStore : Store := [(0, bodyL), (1, bodyR), (2, bodyT)]

end

theorem cbrt_of_cube (a b : ℝ) (ha : 0 ≤ a) (h : a ^ (3 : ℕ) = b) :
    b ^ ((1 : ℝ) / 3) = a := by
  rw [← h, ← Real.rpow_natCast a 3, ← Real.rpow_mul ha]
  norm_num

theorem abs_mk (x y : ℝ) : Complex.abs ⟨x, y⟩ = Real.sqrt (x ^ 2 + y ^ 2) := by
  rw [Complex.abs_apply, Complex.normSq_mk]
  ring_nf

theorem sub_mk (a b c d : ℝ) : (⟨a, b⟩ : ℂ) - ⟨c, d⟩ = ⟨a - c, b - d⟩ := by
  apply Complex.ext <;> simp

theorem rad_L : bodyL.get_radius = 1 := by
  simp [bodyL, Body.get_radius, Real.one_rpow]

theorem rad_R : bodyR.get_radius = 1 := by
  simp [bodyR, Body.get_radius, Real.one_rpow]

theorem rad_T : bodyT.get_radius = 1 / 10 := by
  simp only [bodyT, Body.get_radius]
  exact cbrt_of_cube (1 / 10) (1 / 1000) (by norm_num) (by norm_num)

theorem sqrt_two_gt : ¬ Real.sqrt 2 ≤ 11 / 10 := by
  rw [not_le]
  rw [show (11 : ℝ) / 10 = Real.sqrt ((11 / 10) ^ 2) by rw [Real.sqrt_sq]; norm_num]
  apply Real.sqrt_lt_sqrt <;> norm_num

theorem abs_pm_one : ∀ (x y : ℝ), x ^ 2 = 1 → y ^ 2 = 1 →
    Complex.abs ⟨x, y⟩ = Real.sqrt 2 := by
  intro x y hx hy
  rw [abs_mk, hx, hy]
  norm_num

theorem gc_L : get_closest bodyL 0 threeStore = [1] := by
  have h1 : Complex.abs (bodyR.pos - bodyL.pos) ≤ bodyL.get_radius + bodyR.get_radius := by
    rw [rad_L, rad_R, show bodyR.pos - bodyL.pos = ⟨2, 0⟩ by
      rw [show bodyR.pos = (⟨1, 0⟩ : ℂ) from rfl, show bodyL.pos = (⟨-1, 0⟩ : ℂ) from rfl,
        sub_mk]
      norm_num]
    rw [abs_mk]
    rw [show (2:ℝ)^2 + 0^2 = 2^2 by norm_num, Real.sqrt_sq (by norm_num)]
    norm_num
  have h2 : ¬ Complex.abs (bodyT.pos - bodyL.pos) ≤ bodyL.get_radius + bodyT.get_radius := by
    rw [rad_L, rad_T, show bodyT.pos - bodyL.pos = ⟨1, 1⟩ by
      rw [show bodyT.pos = (⟨0, 1⟩ : ℂ) from rfl, show bodyL.pos = (⟨-1, 0⟩ : ℂ) from rfl,
        sub_mk]
      norm_num]
    rw [abs_pm_one 1 1 (by norm_num) (by norm_num)]
    rw [show (1:ℝ) + 1/10 = 11/10 by norm_num]
    exact sqrt_two_gt
  unfold get_closest threeStore
  simp [List.filter_cons, h1, h2]

theorem gc_R : get_closest bodyR 1 threeStore = [0] := by
  have h1 : Complex.abs (bodyL.pos - bodyR.pos) ≤ bodyR.get_radius + bodyL.get_radius := by
    rw [rad_L, rad_R, show bodyL.pos - bodyR.pos = ⟨-2, 0⟩ by
      rw [show bodyR.pos = (⟨1, 0⟩ : ℂ) from rfl, show bodyL.pos = (⟨-1, 0⟩ : ℂ) from rfl,
        sub_mk]
      norm_num]
    rw [abs_mk]
    rw [show (-2:ℝ)^2 + 0^2 = 2^2 by norm_num, Real.sqrt_sq (by norm_num)]
    norm_num
  have h2 : ¬ Complex.abs (bodyT.pos - bodyR.pos) ≤ bodyR.get_radius + bodyT.get_radius := by
    rw [rad_R, rad_T, show bodyT.pos - bodyR.pos = ⟨-1, 1⟩ by
      rw [show bodyT.pos = (⟨0, 1⟩ : ℂ) from rfl, show bodyR.pos = (⟨1, 0⟩ : ℂ) from rfl,
        sub_mk]
      norm_num]
    rw [abs_pm_one (-1) 1 (by norm_num) (by norm_num)]
    rw [show (1:ℝ) + 1/10 = 11/10 by norm_num]
    exact sqrt_two_gt
  unfold get_closest threeStore
  simp [List.filter_cons, h1, h2]

theorem gc_T : get_closest bodyT 2 threeStore = [] := by
  have h1 : ¬ Complex.abs (bodyL.pos - bodyT.pos) ≤ bodyT.get_radius + bodyL.get_radius := by
    rw [rad_L, rad_T, show bodyL.pos - bodyT.pos = ⟨-1, -1⟩ by
      rw [show bodyT.pos = (⟨0, 1⟩ : ℂ) from rfl, show bodyL.pos = (⟨-1, 0⟩ : ℂ) from rfl,
        sub_mk]
      norm_num]
    rw [abs_pm_one (-1) (-1) (by norm_num) (by norm_num)]
    rw [show (1:ℝ)/10 + 1 = 11/10 by norm_num]
    exact sqrt_two_gt
  have h2 : ¬ Complex.abs (bodyR.pos - bodyT.pos) ≤ bodyT.get_radius + bodyR.get_radius := by
    rw [rad_R, rad_T, show bodyR.pos - bodyT.pos = ⟨1, -1⟩ by
      rw [show bodyT.pos = (⟨0, 1⟩ : ℂ) from rfl, show bodyR.pos = (⟨1, 0⟩ : ℂ) from rfl,
        sub_mk]
      norm_num]
    rw [abs_pm_one 1 (-1) (by norm_num) (by norm_num)]
    rw [show (1:ℝ)/10 + 1 = 11/10 by norm_num]
    exact sqrt_two_gt
  unfold get_closest threeStore
  simp [List.filter_cons, h1, h2]

theorem cc_R2 : collect_chain 2 bodyR 1 threeStore (insert 0 ∅) =
    ([1], insert 1 (insert 0 ∅)) := by
  rw [collect_chain_succ, gc_R, List.foldl_cons, List.foldl_nil]
  unfold ccStep
  rw [if_pos (by decide)]

theorem cc_L3 : collect_chain 3 bodyL 0 threeStore ∅ = ([0, 1], insert 1 (insert 0 ∅)) := by
  have hlk : List.lookup 1 threeStore = some bodyR := by simp [threeStore, List.lookup]
  rw [collect_chain_succ, gc_L, List.foldl_cons, List.foldl_nil]
  unfold ccStep
  rw [if_neg (by decide)]
  simp only [hlk, cc_R2]
  rfl

theorem cc_T3 : collect_chain 3 bodyT 2 threeStore (insert 1 (insert 0 ∅)) =
    ([2], insert 2 (insert 1 (insert 0 ∅))) := by
  rw [collect_chain_succ, gc_T, List.foldl_nil]

theorem chainsAndVisited_three :
    chainsAndVisited threeStore = ([[0, 1], [2]], insert 2 (insert 1 (insert 0 ∅))) := by
  have s1 : cvStep threeStore ([], ∅) (0, bodyL) = ([[0, 1]], insert 1 (insert 0 ∅)) := by
    unfold cvStep
    rw [if_neg (by decide)]
    simp only [show threeStore.length = 3 from rfl, cc_L3]
    rfl
  have s2 : cvStep threeStore ([[0, 1]], insert 1 (insert 0 ∅)) (1, bodyR) =
      ([[0, 1]], insert 1 (insert 0 ∅)) := by
    unfold cvStep
    rw [if_pos (by decide)]
  have s3 : cvStep threeStore ([[0, 1]], insert 1 (insert 0 ∅)) (2, bodyT) =
      ([[0, 1], [2]], insert 2 (insert 1 (insert 0 ∅))) := by
    unfold cvStep
    rw [if_neg (by decide)]
    simp only [show threeStore.length = 3 from rfl, cc_T3]
    rfl
  have key : ∀ l : Store, l = [(0, bodyL), (1, bodyR), (2, bodyT)] →
      List.foldl (cvStep threeStore) ([], ∅) l =
        ([[0, 1], [2]], insert 2 (insert 1 (insert 0 ∅))) := by
    intro l hl
    subst hl
    rw [List.foldl_cons, s1, List.foldl_cons, s2, List.foldl_cons, s3, List.foldl_nil]
  exact key threeStore rfl

theorem advance_three : advance threeStore = threeStore := by
  simp [advance, threeStore, bodyL, bodyR, bodyT]

theorem mergeChain_LR : mergeChain threeStore [0, 1] = Body.mk 0 0 2 := by
  have h0 : getBody threeStore 0 = bodyL := by simp [getBody, threeStore, List.lookup]
  have h1 : getBody threeStore 1 = bodyR := by simp [getBody, threeStore, List.lookup]
  unfold mergeChain
  simp only [List.map_cons, List.map_nil, List.sum_cons, List.sum_nil, h0, h1]
  have hmass : bodyL.mass + (bodyR.mass + 0) = 2 := by
    simp only [bodyL, bodyR]
    norm_num
  rw [hmass]
  have hpos : (bodyL.mass : ℂ) * bodyL.pos + ((bodyR.mass : ℂ) * bodyR.pos + 0) = 0 := by
    simp only [bodyL, bodyR]
    apply Complex.ext <;> simp
  have hspeed : (bodyL.mass : ℂ) * bodyL.speed + ((bodyR.mass : ℂ) * bodyR.speed + 0) = 0 := by
    simp only [bodyL, bodyR]
    apply Complex.ext <;> simp
  rw [hpos, hspeed]
  simp

theorem mergeChain_T : mergeChain threeStore [2] = Body.mk ⟨0, 1⟩ 0 (1 / 1000) := by
  have h2 : getBody threeStore 2 = bodyT := by simp [getBody, threeStore, List.lookup]
  unfold mergeChain
  simp only [List.map_cons, List.map_nil, List.sum_cons, List.sum_nil, h2]
  have hne : ((bodyT.mass : ℝ) : ℂ) ≠ 0 := by
    simp [bodyT]
  have hmass : bodyT.mass + 0 = 1 / 1000 := by simp [bodyT]
  rw [hmass]
  have hcast : ((1 / 1000 : ℝ) : ℂ) = ((bodyT.mass : ℝ) : ℂ) := by norm_num [bodyT]
  have hpos : ((bodyT.mass : ℂ) * bodyT.pos + 0) / ((1 / 1000 : ℝ) : ℂ) = bodyT.pos := by
    rw [add_zero, hcast, mul_div_cancel_left₀ _ hne]
  have hspeed : ((bodyT.mass : ℂ) * bodyT.speed + 0) / ((1 / 1000 : ℝ) : ℂ) = bodyT.speed := by
    rw [add_zero, hcast, mul_div_cancel_left₀ _ hne]
  rw [hpos, hspeed]
  rfl

theorem update_bodies_three :
    update_bodies threeStore =
      [(3, Body.mk 0 0 2), (4, Body.mk ⟨0, 1⟩ 0 (1 / 1000))] := by
  unfold update_bodies
  rw [advance_three, chainsAndVisited_three]
  have hrem : threeStore.filter
      (fun p => p.1 ∉ (( [[0, 1], [2]], insert 2 (insert 1 (insert 0 ∅))) :
        List (List ℕ) × Finset ℕ).2) = [] := by
    simp [threeStore]
  rw [hrem, List.nil_append]
  have hfresh : freshBase threeStore = 3 := by
    simp [freshBase, threeStore, Store.keys]
  rw [hfresh]
  show [(3 + 0, mergeChain threeStore [0, 1]), (3 + 1, mergeChain threeStore [2])] = _
  rw [mergeChain_LR, mergeChain_T]

theorem cbrt_two_gt : (91 : ℝ) / 100 < (2 : ℝ) ^ ((1 : ℝ) / 3) := by
  have h1 : ((91 : ℝ) / 100) ^ (3 : ℕ) < 2 := by norm_num
  have h2 : ((91 : ℝ) / 100) = (((91 : ℝ) / 100) ^ (3 : ℕ)) ^ ((1 : ℝ) / 3) :=
    (cbrt_of_cube ((91 : ℝ) / 100) _ (by norm_num) rfl).symm
  rw [h2]
  exact Real.rpow_lt_rpow (by positivity) h1 (by norm_num)

/-- C1, counterexample: starting from three bodies - two touching unit
masses and a separate light body that overlaps nothing - one call to
`update_bodies` merges the two unit masses into a product of mass 2 at the
origin whose enlarged radius `2^(1/3) ≈ 1.26` overlaps the light body at
distance 1: the post-call store contains a pair with
`|pos_i - pos_j| < radius_i + radius_j - 1/100`, so the merge pass does not
resolve overlaps created by inserting merged products. -/
theorem merged_bodies_overlap :
    update_bodies threeStore =
      [(3, Body.mk 0 0 2), (4, Body.mk ⟨0, 1⟩ 0 (1 / 1000))] ∧
      Complex.abs ((Body.mk ⟨0, 1⟩ 0 (1 / 1000)).pos - (Body.mk 0 0 2).pos) <
        (Body.mk 0 0 2).get_radius + (Body.mk ⟨0, 1⟩ 0 (1 / 1000)).get_radius - 1 / 100 := by
  refine ⟨update_bodies_three, ?_⟩
  have habs : Complex.abs ((Body.mk ⟨0, 1⟩ 0 (1 / 1000)).pos - (Body.mk 0 0 2).pos) = 1 := by
    rw [show (Body.mk ⟨0, 1⟩ 0 (1 / 1000)).pos - (Body.mk 0 0 2).pos = (⟨0, 1⟩ : ℂ) from by
      apply Complex.ext <;> simp]
    rw [abs_mk]
    norm_num
  have hrad2 : (Body.mk 0 0 2).get_radius = (2 : ℝ) ^ ((1 : ℝ) / 3) := rfl
  have hradT : (Body.mk ⟨0, 1⟩ 0 (1 / 1000)).get_radius = 1 / 10 := by
    show (1 / 1000 : ℝ) ^ ((1 : ℝ) / 3) = 1 / 10
    exact cbrt_of_cube (1 / 10) (1 / 1000) (by norm_num) (by norm_num)
  rw [habs, hrad2, hradT]
  have := cbrt_two_gt
  linarith

/-- C1, witness for the amended theorem: the chains of the advanced sample
store are pairwise strictly separated. -/
theorem update_chains_separated_witness :
    (chainsAndVisited (advance sampleStore)).1.Pairwise fun c d =>
      ∀ j ∈ c, ∀ k ∈ d, j ≠ k →
        (getBody (advance sampleStore) j).get_radius +
            (getBody (advance sampleStore) k).get_radius <
          Complex.abs
            ((getBody (advance sampleStore) k).pos - (getBody (advance sampleStore) j).pos) :=
  update_chains_separated sampleStore sampleStore_keys_nodup

end Gravity
